import Mathlib

/-!
A shallow embedding of the food-resolution core of a Telegram nutrition bot
(`utils.py`, `handlers.py`), together with theorems settling the claims of its
natural-language specification.

Modelling conventions:
* Python `float` values are modelled as exact rationals (`ℚ`).
* Python strings are modelled as `String` / `List Char`; only the character
  classes the program manipulates (ASCII, Cyrillic, whitespace) are modelled
  in `pyLower`; `str.lower()` is the identity on every character the
  normalizer can output, which is all the claims need.
* Python dicts with insertion order are modelled as association lists
  (`List (String × FoodRec)`); lookup takes the first binding, update replaces
  in place, insert appends (CPython dict semantics).
* Network calls (`search_openfoodfacts_candidates`, the barcode HTTP fetch)
  are modelled by passing the decoded response as an explicit argument.
-/

set_option maxRecDepth 100000

/-- Python whitespace (`str.strip`, `str.split`, regex `\s`), ASCII part. -/
def isWsC (c : Char) : Bool :=
  c.toNat = 32 || c.toNat = 9 || c.toNat = 10 || c.toNat = 13 || c.toNat = 11 || c.toNat = 12

/-- ASCII decimal digit (regex `\d`, `0-9`). -/
def isDigitC (c : Char) : Bool := 48 ≤ c.toNat && c.toNat ≤ 57

/-- The character class `[0-9a-zа-я]` of `normalize_food_name`'s keep-regex.
Note that `ё` (U+0451) is *not* in `а-я` (U+0430–U+044F). -/
def allowedChar (c : Char) : Bool :=
  (48 ≤ c.toNat && c.toNat ≤ 57) || (97 ≤ c.toNat && c.toNat ≤ 122) ||
    (1072 ≤ c.toNat && c.toNat ≤ 1103)

/-- Python `str.lower()` restricted to the alphabets the bot manipulates:
ASCII `A-Z`, Cyrillic `А-Я` (U+0410–U+042F) and `Ё` (U+0401). -/
def pyLower (c : Char) : Char :=
  if 65 ≤ c.toNat ∧ c.toNat ≤ 90 then Char.ofNat (c.toNat + 32)
  else if 1040 ≤ c.toNat ∧ c.toNat ≤ 1071 then Char.ofNat (c.toNat + 32)
  else if c.toNat = 1025 then Char.ofNat 1105
  else c

/-- Python `str.strip()` (no argument): drop leading and trailing whitespace. -/
def pyStrip (l : List Char) : List Char :=
  ((l.dropWhile isWsC).reverse.dropWhile isWsC).reverse

/-- The single-character replacement `t.replace("ё", "е")`. -/
def replaceYo (l : List Char) : List Char :=
  l.map fun c => if c = 'ё' then 'е' else c

/-- The single-character replacement `s.replace(",", ".")`. -/
def commaToDot (l : List Char) : List Char :=
  l.map fun c => if c = ',' then '.' else c

/-- Helper for the regex `\([^)]*\)`: skip up to and including the first `)`. -/
def dropToClose : List Char → Option (List Char)
  | [] => none
  | c :: cs => if c = ')' then some cs else dropToClose cs

/-- Body of `stripParens`, structurally recursive on a fuel bound (the fuel is
always larger than the list length, so the `0` case is unreachable). -/
def stripParensAux : Nat → List Char → List Char
  | 0, l => l
  | _ + 1, [] => []
  | fuel + 1, c :: cs =>
    if c = '(' then
      match dropToClose cs with
      | some rest => ' ' :: stripParensAux fuel rest
      | none => '(' :: stripParensAux fuel cs
    else c :: stripParensAux fuel cs

/-- `re.sub(r"\([^)]*\)", " ", t)`: each parenthesised group (up to the first
closing parenthesis) is replaced by a single space; an unmatched `(` stays. -/
def stripParens (l : List Char) : List Char := stripParensAux (l.length + 1) l

/-- A character matched by `[^0-9a-zа-я\s]`. -/
def badChar (c : Char) : Bool := !(allowedChar c || isWsC c)

def subBadRunsAux : Nat → List Char → List Char
  | 0, l => l
  | _ + 1, [] => []
  | fuel + 1, c :: cs =>
    if badChar c then ' ' :: subBadRunsAux fuel (cs.dropWhile badChar)
    else c :: subBadRunsAux fuel cs

/-- `re.sub(r"[^0-9a-zа-я\s]+", " ", t)`: every maximal run of characters that
are neither kept nor whitespace becomes a single space. -/
def subBadRuns (l : List Char) : List Char := subBadRunsAux (l.length + 1) l

def splitWsAux : Nat → List Char → List (List Char)
  | 0, _ => []
  | _ + 1, [] => []
  | fuel + 1, c :: cs =>
    if isWsC c then splitWsAux fuel cs
    else (c :: cs.takeWhile (fun x => !isWsC x)) :: splitWsAux fuel (cs.dropWhile (fun x => !isWsC x))

/-- Python `str.split()` (no argument): maximal runs of non-whitespace. -/
def splitWs (l : List Char) : List (List Char) := splitWsAux (l.length + 1) l

/-- `STOP_WORDS` of `utils.py`. -/
def STOP_WORDS : List (List Char) :=
  ["без", "с", "и", "или", "на", "в", "по", "из", "для", "со",
   "упаковка", "пачка", "пакет", "шт", "штуки", "штук"].map String.data

/-- `" ".join(parts)`. -/
def joinSp : List (List Char) → List Char
  | [] => []
  | [w] => w
  | w :: ws => w ++ ' ' :: joinSp ws

/-- List-level body of `normalize_food_name`. -/
def normalizeList (l : List Char) : List Char :=
  let t := pyStrip (l.map pyLower)
  let t := replaceYo t
  let t := stripParens t
  let t := subBadRuns t
  joinSp ((splitWs t).filter fun w => !w.isEmpty && !(STOP_WORDS.contains w))

/-- `normalize_food_name` of `utils.py`: lowercase, strip, fold `ё` to `е`,
drop parenthesised content, turn punctuation runs into spaces, drop stop
words, join the remaining words with single spaces. -/
def normalize_food_name (s : String) : String := ⟨normalizeList s.data⟩

/-!
`match_score` embeds `difflib.SequenceMatcher(a, b).ratio()` for short strings
(below the 200-character autojunk threshold, so no junk handling applies).
`find_longest_match` then returns the longest matching block, earliest in `a`
and then in `b` on ties; `ratio` is `2·M/(len a + len b)` where `M` totals the
recursively found block sizes, and Python's `round` is round-half-to-even.
-/

def commonPrefixLen : List Char → List Char → Nat
  | a :: as, b :: bs => if a = b then commonPrefixLen as bs + 1 else 0
  | _, _ => 0

/-- Length of the longest common block of `a[i:ahi]` and `b[j:bhi]` starting
at positions `i` and `j`. -/
def matchLenAt (a b : List Char) (ahi bhi i j : Nat) : Nat :=
  commonPrefixLen ((a.drop i).take (ahi - i)) ((b.drop j).take (bhi - j))

/-- `SequenceMatcher.find_longest_match` on the ranges `[alo, ahi) × [blo, bhi)`
(no junk): the longest block, ties broken by least `i`, then least `j`. -/
def findLongestMatch (a b : List Char) (alo ahi blo bhi : Nat) : Nat × Nat × Nat :=
  (List.range' alo (ahi - alo)).foldl
    (fun best i =>
      (List.range' blo (bhi - blo)).foldl
        (fun best j =>
          let k := matchLenAt a b ahi bhi i j
          if best.2.2 < k then (i, j, k) else best)
        best)
    (alo, blo, 0)

/-- Total size of all matching blocks (`get_matching_blocks` recursion); the
fuel always exceeds the width of the `a` range, so exhaustion is unreachable. -/
def matchBlocksTotal (a b : List Char) : Nat → Nat → Nat → Nat → Nat → Nat
  | 0, _, _, _, _ => 0
  | fuel + 1, alo, ahi, blo, bhi =>
    let m := findLongestMatch a b alo ahi blo bhi
    let i := m.1
    let j := m.2.1
    let k := m.2.2
    if k = 0 then 0
    else
      k + (if alo < i && blo < j then matchBlocksTotal a b fuel alo i blo j else 0)
        + (if i + k < ahi && j + k < bhi then matchBlocksTotal a b fuel (i + k) ahi (j + k) bhi else 0)

def matchTotal (a b : List Char) : Nat :=
  matchBlocksTotal a b (a.length + 1) 0 a.length 0 b.length

/-- `SequenceMatcher.ratio()` as an exact rational (`1.0` on two empty inputs). -/
def ratioQ (a b : List Char) : ℚ :=
  if a.length + b.length = 0 then 1
  else (2 * matchTotal a b : ℚ) / (a.length + b.length)

/-- Python `round` on an exact value: round half to even. -/
def pyRound (x : ℚ) : ℤ :=
  let f := ⌊x⌋
  let r := x - f
  if r < 1 / 2 then f
  else if 1 / 2 < r then f + 1
  else if f % 2 = 0 then f else f + 1

/-- `match_score` of `utils.py`: `int(round(SequenceMatcher(a=..., b=...).ratio() * 100))`,
with `0` for an empty side. -/
def match_score (query_norm name_norm : String) : Nat :=
  if query_norm = "" || name_norm = "" then 0
  else (pyRound (ratioQ query_norm.data name_norm.data * 100)).toNat

/-!
`weighted_median` of `utils.py`. `sorted(..., key=...)` and `list.sort` are
stable, modelled by stable insertion sorts; `statistics.median` sorts and takes
the middle element (or the mean of the two middle ones).
-/

/-- Stable insertion step for `sorted(pairs, key=lambda x: x[0])` (ascending). -/
def insertAscP (x : ℚ × ℚ) : List (ℚ × ℚ) → List (ℚ × ℚ)
  | [] => [x]
  | y :: ys => if x.1 ≤ y.1 then x :: y :: ys else y :: insertAscP x ys

def sortAscP : List (ℚ × ℚ) → List (ℚ × ℚ)
  | [] => []
  | x :: xs => insertAscP x (sortAscP xs)

def insertAscQ (x : ℚ) : List ℚ → List ℚ
  | [] => [x]
  | y :: ys => if x ≤ y then x :: y :: ys else y :: insertAscQ x ys

def sortAscQ : List ℚ → List ℚ
  | [] => []
  | x :: xs => insertAscQ x (sortAscQ xs)

/-- `statistics.median` (unreachable `0` for the empty list, where Python
raises `StatisticsError`). -/
def pyMedian (xs : List ℚ) : ℚ :=
  let s := sortAscQ xs
  let n := s.length
  if n = 0 then 0
  else if n % 2 = 1 then s.getD (n / 2) 0
  else (s.getD (n / 2 - 1) 0 + s.getD (n / 2) 0) / 2

/-- The accumulation loop of `weighted_median`: return the first value whose
cumulative weight reaches half the total. -/
def wmScan (half : ℚ) : List (ℚ × ℚ) → ℚ → Option ℚ
  | [], _ => none
  | (v, w) :: rest, cum => if half ≤ cum + w then some v else wmScan half rest (cum + w)

/-- `weighted_median` of `utils.py`. -/
def weighted_median (values weights : List ℚ) : ℚ :=
  let pairs := sortAscP (values.zip weights)
  let total := weights.sum
  if total ≤ 0 then pyMedian values
  else
    match wmScan (total / 2) pairs 0 with
    | some v => v
    | none => ((pairs.getLast?).map (·.1)).getD 0

/-!
Quantity and serving-size parsing (`parse_amount_suffix`, `parse_serving_g`,
`split_food_and_amount` of `utils.py`). Regexes are embedded directly: the
anchored patterns all have the shape "number, optional whitespace, suffix",
where the suffixes contain no digits or dots, so maximal-munch number reading
coincides with the regex's backtracking search.
-/

/-- Python `\w` (Unicode word character) on the alphabets in play. -/
def isWordChar (c : Char) : Bool :=
  isDigitC c || (97 ≤ c.toNat && c.toNat ≤ 122) || (65 ≤ c.toNat && c.toNat ≤ 90) ||
    c = '_' || (1040 ≤ c.toNat && c.toNat ≤ 1103) || c.toNat = 1025 || c.toNat = 1105

/-- Word boundary `\b` at the start of the remaining input. -/
def boundaryOk : List Char → Bool
  | [] => true
  | c :: _ => !isWordChar c

def digitsToNat (ds : List Char) : Nat :=
  ds.foldl (fun acc c => acc * 10 + (c.toNat - 48)) 0

/-- Read a leading `\d+(?:\.\d+)?` group; returns its exact value and the rest. -/
def takeNum (l : List Char) : Option (ℚ × List Char) :=
  let ds := l.takeWhile isDigitC
  if ds.isEmpty then none
  else
    let rest := l.dropWhile isDigitC
    match rest with
    | '.' :: r2 =>
      let fs := r2.takeWhile isDigitC
      if fs.isEmpty then some ((digitsToNat ds : ℚ), rest)
      else some ((digitsToNat ds : ℚ) + (digitsToNat fs : ℚ) / (10 : ℚ) ^ fs.length,
                 r2.dropWhile isDigitC)
    | _ => some ((digitsToNat ds : ℚ), rest)

/-- Does one of the unit alternatives match here, followed by `\b`? -/
def unitWithBoundary (units : List (List Char)) (l : List Char) : Bool :=
  units.any fun u => u.isPrefixOf l && boundaryOk (l.drop u.length)

/-- One attempt of `re.search` for "number `\s*` unit `\b`" at this position. -/
def unitNumAt (units : List (List Char)) (l : List Char) : Option ℚ :=
  match takeNum l with
  | none => none
  | some (v, rest) => if unitWithBoundary units (rest.dropWhile isWsC) then some v else none

/-- `re.search` (leftmost match) for "number `\s*` unit `\b`". -/
def scanUnitNum (units : List (List Char)) : List Char → Option ℚ
  | [] => none
  | c :: cs =>
    match unitNumAt units (c :: cs) with
    | some v => some v
    | none => scanUnitNum units cs

def gramUnits : List (List Char) := ["g", "гр", "г"].map String.data
def mlUnits : List (List Char) := ["ml", "мл"].map String.data

/-- `parse_serving_g` of `utils.py`: first a gram quantity anywhere in the
descriptor, then a millilitre quantity (density 1). -/
def parse_serving_g (serving_size : Option String) : Option ℚ :=
  match serving_size with
  | none => none
  | some s0 =>
    if s0 = "" then none
    else
      let s := commaToDot (pyStrip (s0.data.map pyLower))
      match scanUnitNum gramUnits s with
      | some v => some v
      | none => scanUnitNum mlUnits s

def gramSuffixes : List (List Char) := ["г", "гр", "g", "gram", "grams"].map String.data
def mlSuffixes : List (List Char) := ["мл", "ml"].map String.data
def pieceSuffixes : List (List Char) := ["шт", "pcs", "piece", "pieces"].map String.data
def servingSuffixes : List (List Char) :=
  ["порц", "порция", "порции", "serving", "portion"].map String.data

/-- The anchored pattern cascade of `parse_amount_suffix`, after
strip/lower/comma-to-dot preprocessing. -/
def parseAmountCore (s : List Char) : Option ℚ × Option String :=
  match takeNum s with
  | none => (none, none)
  | some (v, rest) =>
    let rest2 := rest.dropWhile isWsC
    if gramSuffixes.contains rest2 then (some v, some "g")
    else if mlSuffixes.contains rest2 then (some v, some "ml")
    else if pieceSuffixes.contains rest2 then (some v, some "piece")
    else if servingSuffixes.contains rest2 then (some v, some "serving")
    else if rest.isEmpty then
      if v ≤ 10 then (some v, some "auto") else (some v, some "g")
    else (none, none)

/-- `parse_amount_suffix` of `utils.py`; unit `auto` marks a bare number ≤ 10. -/
def parse_amount_suffix (raw : String) : Option ℚ × Option String :=
  parseAmountCore (commaToDot ((pyStrip raw.data).map pyLower))

/-- `split_food_and_amount` of `utils.py`: try the last token as an amount,
then the last two tokens, else the whole text is the food query. -/
def split_food_and_amount (args : String) : String × Option ℚ × Option String :=
  let text := pyStrip args.data
  if text.isEmpty then ("", none, none)
  else
    let parts := splitWs text
    if 2 ≤ parts.length then
      match parse_amount_suffix ⟨parts.getLast?.getD []⟩ with
      | (some v, some u) => (⟨pyStrip (joinSp parts.dropLast)⟩, some v, some u)
      | _ =>
        match parse_amount_suffix ⟨joinSp (parts.drop (parts.length - 2))⟩ with
        | (some v, some u) => (⟨pyStrip (joinSp (parts.take (parts.length - 2)))⟩, some v, some u)
        | _ => (⟨text⟩, none, none)
    else (⟨text⟩, none, none)

/-!
Data model. Persisted food records (`custom_foods` values in `storage.py`) are
always written with the fields `name`, `kcal_100g`, `serving_g`, `source`
(`/add_food`, manual-kcal entry, serving-size learning), so `kcal_100g` is a
total field here and the source's `_to_float(...) is None` guards on it are
vacuous; `display_name` is never written and stays an optional field read by
`best_custom_match`'s fallback chain.
-/

structure FoodRec where
  name : String
  kcal_100g : ℚ
  serving_g : Option ℚ := none
  source : String := "manual"
  display_name : Option String := none
deriving DecidableEq

/-- `FoodOption` dataclass of `utils.py` (the spec's Candidate). -/
structure FoodOption where
  name : String
  kcal_100g : ℚ
  score : Nat
  source : String
  serving_g : Option ℚ := none
deriving DecidableEq

/-- The nutriment fields of an OpenFoodFacts record that
`kcal_from_nutriments` reads (numeric-or-absent). -/
structure Nutriments where
  energy_kcal_100g : Option ℚ := none
  energy_kj_100g : Option ℚ := none
  energy_100g : Option ℚ := none
  proteins_100g : Option ℚ := none
  fat_100g : Option ℚ := none
  carbohydrates_100g : Option ℚ := none
deriving DecidableEq

/-- A decoded OpenFoodFacts product (search hit or barcode payload). -/
structure Product where
  product_name : Option String := none
  generic_name : Option String := none
  nutriments : Nutriments := {}
  serving_size : Option String := none
deriving DecidableEq

/-- The result dict of `estimate_food_option` (the spec's ResolutionResult;
`status` is one of `"ok"`, `"choose"`, `"manual"`). -/
structure ResolutionResult where
  status : String
  chosen : Option FoodOption
  options : List FoodOption
  confidence : Nat
  note : String
deriving DecidableEq

/-- Python's falsy-aware `a or b` chain on optional strings (`""` is falsy). -/
def orStr (o : Option String) (d : String) : String :=
  match o with
  | some s => if s = "" then d else s
  | none => d

/-- Atwater 4-9-4 stage of `kcal_from_nutriments`. -/
def kcalAtwater (nutr : Nutriments) : Option ℚ :=
  match nutr.proteins_100g, nutr.fat_100g, nutr.carbohydrates_100g with
  | some p, some f, some c =>
    let est := 4 * p + 9 * f + 4 * c
    if 0 < est then some est else none
  | _, _, _ => none

/-- Kilojoule stage of `kcal_from_nutriments` (`energy-kj_100g`, falling back
to `energy_100g`, converted by `kJ / 4.184`). -/
def kcalFromKj (nutr : Nutriments) : Option ℚ :=
  let kj := match nutr.energy_kj_100g with
    | some kj => some kj
    | none => nutr.energy_100g
  match kj with
  | some kj => if 0 < kj then some (kj / (4.184 : ℚ)) else kcalAtwater nutr
  | none => kcalAtwater nutr

/-- `kcal_from_nutriments` of `utils.py`: direct kcal field if positive, else
kilojoules, else the Atwater estimate; `none` when nothing usable. -/
def kcal_from_nutriments (nutr : Nutriments) : Option ℚ :=
  match nutr.energy_kcal_100g with
  | some kcal => if 0 < kcal then some kcal else kcalFromKj nutr
  | none => kcalFromKj nutr

/-- First binding for a key in an insertion-ordered dict (`custom_foods[k]`). -/
def lookupFood (key : String) : List (String × FoodRec) → Option FoodRec
  | [] => none
  | (k, r) :: rest => if k = key then some r else lookupFood key rest

/-- `cf[key] = record` on an insertion-ordered dict: replace in place or append. -/
def upsertFood (key : String) (rec : FoodRec) : List (String × FoodRec) → List (String × FoodRec)
  | [] => [(key, rec)]
  | (k, r) :: rest =>
    if k = key then (key, rec) :: rest else (k, r) :: upsertFood key rec rest

/-- Display name of a matched record: `rec.get("name") or rec.get("display_name")
or fallback`. -/
def recDisplay (rec : FoodRec) (fallback : String) : String :=
  if rec.name ≠ "" then rec.name else orStr rec.display_name fallback

/-- The fuzzy loop of `best_custom_match`: running best `(key, score)`,
replaced only on a strictly greater score. -/
def bestFuzzy (qn : String) (foods : List (String × FoodRec)) : Option (String × Nat) :=
  foods.foldl
    (fun best kr =>
      let s := match_score qn kr.1
      match best with
      | none => some (kr.1, s)
      | some b => if b.2 < s then some (kr.1, s) else some b)
    none

/-- `best_custom_match` of `utils.py`. -/
def best_custom_match (query : String) (custom_foods : List (String × FoodRec)) :
    Option FoodOption :=
  let qn := normalize_food_name query
  if qn = "" || custom_foods.isEmpty then none
  else
    match lookupFood qn custom_foods with
    | some rec =>
      some ⟨recDisplay rec query, rec.kcal_100g, 100, "custom_exact", rec.serving_g⟩
    | none =>
      match bestFuzzy qn custom_foods with
      | none => none
      | some (key, sc) =>
        if sc < 70 then none
        else
          match lookupFood key custom_foods with
          | none => none
          | some rec => some ⟨recDisplay rec key, rec.kcal_100g, sc, "custom_fuzzy", rec.serving_g⟩

/-- `re.sub(r"\D+", "", barcode)`. -/
def cleanDigits (l : List Char) : List Char := l.filter isDigitC

/-- `food_by_barcode` of `utils.py`, with the decoded HTTP payload passed in
(`resp = none` models network failure, `status != 1`, or a missing product). -/
def food_by_barcode (barcode : String) (resp : Option Product) : Option FoodOption :=
  if (cleanDigits barcode.data).isEmpty then none
  else
    match resp with
    | none => none
    | some p =>
      let name := orStr p.product_name (orStr p.generic_name "Неизвестно")
      match kcal_from_nutriments p.nutriments with
      | none => none
      | some kcal => some ⟨name, kcal, 100, "barcode", parse_serving_g p.serving_size⟩

/-- One search hit turned into a `FoodOption` (the body of the `for p in
prods` loop of `estimate_food_option`; a record with no usable kcal is
dropped, matching `continue`). -/
def optionFromProduct (qn : String) (p : Product) : Option FoodOption :=
  let name := orStr p.product_name (orStr p.generic_name "Неизвестно")
  match kcal_from_nutriments p.nutriments with
  | none => none
  | some kcal =>
    let sn := normalize_food_name name
    some ⟨name, kcal, match_score qn sn, "off", parse_serving_g p.serving_size⟩

def buildOptions (qn : String) (prods : List Product) : List FoodOption :=
  prods.filterMap (optionFromProduct qn)

/-- Stable insertion step for `options.sort(key=lambda x: x.score, reverse=True)`. -/
def insertDescFO (x : FoodOption) : List FoodOption → List FoodOption
  | [] => [x]
  | y :: ys => if y.score ≤ x.score then x :: y :: ys else y :: insertDescFO x ys

def sortDescFO : List FoodOption → List FoodOption
  | [] => []
  | x :: xs => insertDescFO x (sortDescFO xs)

/-- The plausibility filter `0 < o.kcal_100g < 900`. -/
def plausB (o : FoodOption) : Bool := decide (0 < o.kcal_100g) && decide (o.kcal_100g < 900)

/-- The confidence heuristic of the external branch (base from the best
score, +5 for a spread of at least 10, +5 for at least three plausible
values, clamped by `max(0, min(95, conf))`, which is `min 95` on `ℕ`). -/
def offConfidence (best_score second_score nvals : Nat) : Nat :=
  let base : Nat :=
    if 90 ≤ best_score then 85
    else if 80 ≤ best_score then 75
    else if 70 ≤ best_score then 60
    else 40
  min 95 (base + (if 10 ≤ (best_score : ℤ) - (second_score : ℤ) then 5 else 0)
               + (if 3 ≤ nvals then 5 else 0))

/-- Ranking, robust aggregation and confidence scoring: lines 427–494 of
`utils.py` (everything after the OpenFoodFacts options are built). The empty
case is the `if not options` early return. -/
def rankAndResolve (options : List FoodOption) : ResolutionResult :=
  match sortDescFO options with
  | [] => ⟨"manual", none, [], 0, "off_empty"⟩
  | b :: rest =>
    let sorted := b :: rest
    let top := sorted.take 5
    let plaus := top.filter plausB
    let kcal_vals := plaus.map (·.kcal_100g)
    let weights := plaus.map fun o => max 1 (o.score : ℚ)
    let best := b
    let best_score := best.score
    let second_score := (rest.head?.map (·.score)).getD 0
    let conf := offConfidence best_score second_score kcal_vals.length
    let chosen : FoodOption :=
      if 3 ≤ kcal_vals.length then
        ⟨best.name, weighted_median kcal_vals weights, best.score, "off_robust", best.serving_g⟩
      else
        ⟨best.name, best.kcal_100g, best.score, "off_best", best.serving_g⟩
    if conf < 75 then ⟨"choose", none, sorted.take 3, conf, "off_low_confidence"⟩
    else ⟨"ok", some chosen, sorted.take 3, conf, chosen.source⟩

/-- The external branch of `estimate_food_option` (OpenFoodFacts search). -/
def externalResolve (qn : String) (searchResp : List Product) : ResolutionResult :=
  rankAndResolve (buildOptions qn searchResp)

def isBarcodeText (l : List Char) : Bool :=
  (l.filter (fun c => c ≠ ' ')).all isDigitC &&
    8 ≤ (l.filter (fun c => c ≠ ' ')).length && (l.filter (fun c => c ≠ ' ')).length ≤ 14

/-- `estimate_food_option` of `utils.py`. The two network responses for this
single run are passed explicitly: `bcResp` is the decoded barcode payload
(only consulted on the `\d{8,14}` shortcut) and `searchResp` the decoded
search hits. -/
def estimate_food_option (query : String) (custom_foods : List (String × FoodRec))
    (bcResp : Option Product) (searchResp : List Product) : ResolutionResult :=
  let raw : String := ⟨pyStrip query.data⟩
  if raw = "" then ⟨"manual", none, [], 0, "empty"⟩
  else
    match
      (if isBarcodeText raw.data then food_by_barcode raw bcResp else none) with
    | some opt => ⟨"ok", some opt, [opt], 100, "barcode"⟩
    | none =>
      match best_custom_match raw custom_foods with
      | some c =>
        if c.source = "custom_exact" || 85 ≤ c.score then
          ⟨"ok", some c, [c],
            (if c.source = "custom_exact" then 95 else min 90 c.score), c.source⟩
        else ⟨"choose", none, [c], c.score, "custom_fuzzy_low"⟩
      | none => externalResolve (normalize_food_name raw) searchResp

/-!
The `/log_food` conversation flow of `handlers.py`. The aiogram `FSMContext`
data bag, the user's custom-food dict and the day's calorie total are bundled
into one `BotWorld`; replies sent to the chat are not part of the state. Each
handler acts only in the FSM state its router filter selects. Store writes
that only touch day targets are omitted (they do not appear in any claim's
state). `lastLog` records the `(name, grams, calories)` of the last completed
`_finish_food_log`.
-/

inductive FLState
  | idle
  | waiting_choice
  | waiting_manual_kcal
  | waiting_serving_g
  | waiting_grams
deriving DecidableEq

/-- The `state.update_data` bag used by the food-log flow. -/
structure FSMData where
  food_query : Option String := none
  qty : Option ℚ := none
  unit : Option String := none
  food_options : Option (List FoodOption) := none
  food_name : Option String := none
  kcal_100 : Option ℚ := none
  serving_g : Option ℚ := none
  source : Option String := none
  confidence : Option Nat := none
deriving DecidableEq

structure BotWorld where
  fl : FLState := .idle
  data : FSMData := {}
  custom_foods : List (String × FoodRec) := []
  logged_calories : ℚ := 0
  lastLog : Option (String × ℚ × ℚ) := none
deriving DecidableEq

/-- A Python float as the numeric prompts see it: an exact rational, or one of
the special values produced by `float("nan")`, `float("inf")`, `float("-inf")`. -/
inductive PyFloat
  | num (q : ℚ)
  | pynan
  | pyinf
  | pyninf
deriving DecidableEq

/-- IEEE `<=` as Python evaluates it on these values: every comparison
involving NaN is false. -/
def pyFloatLe : PyFloat → PyFloat → Bool
  | .pynan, _ => false
  | _, .pynan => false
  | .num a, .num b => a ≤ b
  | .pyninf, _ => true
  | _, .pyinf => true
  | _, _ => false

/-- IEEE `<` as Python evaluates it on these values: every comparison
involving NaN is false. -/
def pyFloatLt : PyFloat → PyFloat → Bool
  | .pynan, _ => false
  | _, .pynan => false
  | .num a, .num b => a < b
  | .pyninf, .pyninf => false
  | .pyninf, _ => true
  | .pyinf, _ => false
  | _, .pyinf => true
  | _, _ => false

/-- The range guard shared by the three numeric prompts of `handlers.py`
(`g is None or g <= 0 or g > bound`, after the `None` case is dispatched):
true when the parsed value is rejected and the handler returns unchanged. -/
def promptRejects (g : PyFloat) (bound : ℚ) : Bool :=
  pyFloatLe g (.num 0) || pyFloatLt (.num bound) g

/-- ASCII lowercasing; `float()` reads `nan`, `inf`, `infinity` and the
exponent marker case-insensitively. -/
def asciiLower (c : Char) : Char :=
  if 65 ≤ c.toNat ∧ c.toNat ≤ 90 then Char.ofNat (c.toNat + 32) else c

/-- Split one optional leading sign: (negative?, rest). -/
def splitSign : List Char → Bool × List Char
  | '-' :: r => (true, r)
  | '+' :: r => (false, r)
  | l => (false, l)

/-- One digit group of CPython's float grammar: digits with single underscores
strictly between digits. Accumulates the value and the digit count; `none` on
a leading, trailing or doubled underscore or any other character. -/
def digitGroupGo : List Char → Nat → Nat → Bool → Option (Nat × Nat)
  | [], v, n, lastD => if n = 0 ∨ lastD = true then some (v, n) else none
  | c :: r, v, n, lastD =>
    if isDigitC c then digitGroupGo r (v * 10 + (c.toNat - 48)) (n + 1) true
    else if c = '_' then (if lastD then digitGroupGo r v n false else none)
    else none

/-- A possibly empty digit group: its value and its number of digits. -/
def digitGroup (l : List Char) : Option (Nat × Nat) := digitGroupGo l 0 0 false

/-- The fractional part: nothing, or a dot followed by a digit group. -/
def fracGroup : List Char → Option (Nat × Nat)
  | [] => some (0, 0)
  | _ :: fr => digitGroup fr

/-- The exponent part: nothing, or the marker followed by an optionally signed
nonempty digit group; returns (negative?, exponent). -/
def expGroup : List Char → Option (Bool × Nat)
  | [] => some (false, 0)
  | _ :: er =>
    let es := splitSign er
    match digitGroup es.2 with
    | none => none
    | some (ev, edig) => if edig = 0 then none else some (es.1, ev)

/-- An unsigned decimal float literal (CPython grammar): integer part,
optional fraction, optional exponent, at least one mantissa digit; the exact
rational value (floats are modelled as exact rationals). -/
def decLiteral (body : List Char) : Option ℚ :=
  let mant := body.takeWhile (fun c => c != 'e')
  match digitGroup (mant.takeWhile (fun c => c != '.')),
        fracGroup (mant.dropWhile (fun c => c != '.')),
        expGroup (body.dropWhile (fun c => c != 'e')) with
  | some (iv, idig), some (fv, fdig), some (eneg, ev) =>
    if idig + fdig = 0 then none
    else
      let m : ℚ := (iv : ℚ) + (fv : ℚ) / (10 : ℚ) ^ fdig
      some (if eneg then m / (10 : ℚ) ^ ev else m * (10 : ℚ) ^ ev)
  | _, _, _ => none

/-- `parse_float` of `handlers.py`: `float(str(s).strip().replace(",", "."))`,
with CPython's `float()` grammar: an optional sign, then `nan`, `inf` or
`infinity` (case-insensitive; the sign of `nan` is irrelevant), or a decimal
literal with optional fraction, exponent and underscores between digits. -/
def parse_float (s : String) : Option PyFloat :=
  let t := commaToDot (pyStrip s.data)
  let sg := splitSign t
  let body := sg.2.map asciiLower
  if body = "nan".data then some .pynan
  else if body = "inf".data ∨ body = "infinity".data then
    some (if sg.1 then .pyninf else .pyinf)
  else
    match decLiteral body with
    | none => none
    | some q => some (.num (if sg.1 then -q else q))

/-- Python's falsy-aware `x or d` on an optional float (`0.0` is falsy). -/
def orFloat (o : Option ℚ) (d : ℚ) : ℚ :=
  match o with
  | some x => if x = 0 then d else x
  | none => d

/-- `_finish_food_log`: log `kcal_100 * grams / 100` calories and clear the
conversation state. -/
def finish_food_log (w : BotWorld) (name : String) (kcal_100 grams : ℚ) : BotWorld :=
  let calories := kcal_100 * (grams / 100)
  { w with
    logged_calories := w.logged_calories + calories
    fl := .idle
    data := {}
    lastLog := some (name, grams, calories) }

/-- `_resolve_grams`: convert a user quantity to grams, or switch to the
serving-size question (returning `none`) when one is needed but unknown. -/
def resolve_grams (w : BotWorld) (qty : ℚ) (unit : String) (serving_g : Option ℚ) :
    BotWorld × Option ℚ :=
  if unit = "g" ∨ unit = "ml" then (w, some qty)
  else if unit = "piece" ∨ unit = "serving" ∨ unit = "auto" then
    match serving_g with
    | none =>
      ({ w with fl := .waiting_serving_g, data := { w.data with qty := some qty, unit := some unit } },
       none)
    | some s => (w, some (qty * s))
  else (w, none)

/-- `_start_food_flow`: remember the chosen option, then either convert an
already-given quantity or ask for grams. -/
def start_food_flow (w : BotWorld) (chosen : FoodOption) : BotWorld :=
  let food_q := orStr w.data.food_query chosen.name
  let qty := w.data.qty
  let unit := w.data.unit
  let name := if chosen.name = "" then food_q else chosen.name
  let kcal_100 := chosen.kcal_100g
  let serving_g := chosen.serving_g
  let w := { w with data := { w.data with
    food_name := some name, kcal_100 := some kcal_100, serving_g := serving_g,
    source := some chosen.source, confidence := some chosen.score } }
  match qty, unit with
  | some q, some u =>
    match resolve_grams w q u serving_g with
    | (w, some grams) => finish_food_log w name kcal_100 grams
    | (w, none) => w
  | _, _ => { w with fl := .waiting_grams }

/-- `cmd_log_food` (`/log_food <args>`), with this run's network responses
passed explicitly; the profile is assumed present. -/
def cmd_log_food (args : String) (w : BotWorld) (bcResp : Option Product)
    (searchResp : List Product) : BotWorld :=
  let raw : String := ⟨pyStrip args.data⟩
  if raw = "" then w
  else
    let fa := split_food_and_amount raw
    let food_q := fa.1
    if food_q = "" then w
    else
      let res := estimate_food_option food_q w.custom_foods bcResp searchResp
      let w := { w with fl := .idle,
                        data := { food_query := some food_q, qty := fa.2.1, unit := fa.2.2 } }
      if res.status = "manual" then { w with fl := .waiting_manual_kcal }
      else if res.status = "choose" then
        { w with fl := .waiting_choice, data := { w.data with food_options := some res.options } }
      else
        match res.chosen with
        | none => { w with fl := .waiting_manual_kcal }
        | some chosen => start_food_flow w chosen

/-- `food_serving_g` handler (state `FoodLog.waiting_serving_g`): learn the
grams of one piece/serving, persist it on the matching record, finish the log. -/
def food_serving_g (text : String) (w : BotWorld) : BotWorld :=
  if w.fl ≠ .waiting_serving_g then w
  else
    match parse_float text with
    | none => w
    | some g =>
      if promptRejects g 2000 then w
      else
        match g with
        | .num gq =>
          let qty := orFloat w.data.qty 1
          let name := orStr w.data.food_name (orStr w.data.food_query "продукт")
          let grams := qty * gq
          let key := normalize_food_name name
          let existing := (lookupFood key w.custom_foods).getD
            { name := name, kcal_100g := orFloat w.data.kcal_100 0, source := "manual" }
          let existing := { existing with serving_g := some gq }
          let w := { w with custom_foods := upsertFood key existing w.custom_foods }
          finish_food_log w name (orFloat w.data.kcal_100 0) grams
        -- Only NaN reaches this arm (the guard rejects both infinities). The
        -- source proceeds here, persisting an IEEE NaN serving size and
        -- logging NaN calories — a state with no rational representative, so
        -- the model stops at the acceptance decision.
        | _ => w

/-- `food_manual_kcal` handler (state `FoodLog.waiting_manual_kcal`): persist
the entered kcal/100g as a learned record, then resolve the quantity. -/
def food_manual_kcal (text : String) (w : BotWorld) : BotWorld :=
  if w.fl ≠ .waiting_manual_kcal then w
  else
    match parse_float text with
    | none => w
    | some k =>
      if promptRejects k 2000 then w
      else
        match k with
        | .num kcal =>
          let food_q := orStr w.data.food_query "продукт"
          let name := food_q
          let key := normalize_food_name food_q
          let record : FoodRec := { name := name, kcal_100g := kcal, source := "manual" }
          let w := { w with custom_foods := upsertFood key record w.custom_foods }
          let w := { w with data := { w.data with
            food_name := some name, kcal_100 := some kcal, serving_g := none,
            source := some "manual", confidence := some 100 } }
          match w.data.qty, w.data.unit with
          | some q, some u =>
            match resolve_grams w q u none with
            | (w, some grams) => finish_food_log w name kcal grams
            | (w, none) => w
          | _, _ => { w with fl := .waiting_grams }
        -- Only NaN reaches this arm (the guard rejects both infinities). The
        -- source proceeds here, persisting a record with NaN kcal/100g — a
        -- state with no rational representative, so the model stops at the
        -- acceptance decision.
        | _ => w

/-- `food_grams` handler (state `FoodLog.waiting_grams`): grams eaten. The
`data["kcal_100"]` access raises `KeyError` when the field is unset (never the
case in a real flow); the world is returned unchanged there, matching an
aborted handler. -/
def food_grams (text : String) (w : BotWorld) : BotWorld :=
  if w.fl ≠ .waiting_grams then w
  else
    match parse_float text with
    | none => w
    | some g =>
      if promptRejects g 5000 then w
      else
        -- The catch-all arm covers the aborted `KeyError` case (unset
        -- `kcal_100`/`food_name`) and the accepted-NaN case; in the latter the
        -- source proceeds and logs NaN calories — a state with no rational
        -- representative, so the model stops at the acceptance decision. Only
        -- NaN reaches it as a non-`num` value: the guard rejects both
        -- infinities.
        match g, w.data.kcal_100, w.data.food_name with
        | .num grams, some kcal_100, some name => finish_food_log w name kcal_100 grams
        | _, _, _ => w

/-!
Concrete scenarios used by the claim theorems below.
-/

def barcodeProduct : Product :=
  { product_name := some "x", nutriments := { energy_kcal_100g := some 50 } }

def barcodeKeyFoods : List (String × FoodRec) :=
  [("12345678", { name := "12345678", kcal_100g := 50 })]

def zeroKcalFoods : List (String × FoodRec) := [("x", { name := "x", kcal_100g := 0 })]

def recA : FoodRec := { name := "A", kcal_100g := 50 }

def recB : FoodRec := { name := "B", kcal_100g := 60 }

def foodsAB : List (String × FoodRec) := [("aab", recA), ("abb", recB)]

def offP1 : Product :=
  { product_name := some "aaaac", nutriments := { energy_kcal_100g := some 50 } }

def offP2 : Product :=
  { product_name := some "aaaad", nutriments := { energy_kcal_100g := some 60 } }

def offP3 : Product :=
  { product_name := some "zzz", nutriments := { energy_kcal_100g := some 55 } }

def ex5 : List FoodOption :=
  [⟨"A", 50, 95, "off", none⟩, ⟨"B", 52, 94, "off", none⟩, ⟨"C", 950, 93, "off", none⟩,
   ⟨"D", 53, 40, "off", none⟩, ⟨"E", 54, 30, "off", none⟩]

def bananaFoods : List (String × FoodRec) :=
  [("banana", { name := "banana", kcal_100g := 89, source := "learned" })]

def bananaW1 : BotWorld := cmd_log_food "banana 1 piece" { custom_foods := bananaFoods } none []

def bananaW2 : BotWorld := food_serving_g "120" bananaW1

/-- The head of the tail is neither a digit nor a dot, so a numeral before it
ends exactly there. -/
def headNotNum : List Char → Bool
  | [] => true
  | c :: _ => !isDigitC c && !(c = '.')

theorem dropToClose_length : ∀ {l r : List Char}, dropToClose l = some r → r.length ≤ l.length := by
  intro l
  induction l with
  | nil => intro r h; simp [dropToClose] at h
  | cons c cs ih =>
    intro r h
    by_cases hc : c = ')'
    · simp [dropToClose, hc] at h
      simp [← h, List.length_cons]
    · simp [dropToClose, hc] at h
      exact Nat.le_trans (ih h) (Nat.le_succ _)

theorem dropWhile_length_le (p : Char → Bool) (l : List Char) :
    (l.dropWhile p).length ≤ l.length := by
  induction l with
  | nil => simp [List.dropWhile]
  | cons c cs ih =>
    by_cases h : p c
    · simp [List.dropWhile, h]; exact Nat.le_succ_of_le ih
    · simp [List.dropWhile, h]

example : normalize_food_name "Банан (спелый)" = "банан" := by decide
example : normalize_food_name "  Молоко с сахаром!  " = "молоко сахаром" := by decide
example : normalize_food_name "banana" = "banana" := by decide

example : match_score "aabb" "aab" = 86 := of_decide_eq_true (by with_unfolding_all rfl)
example : match_score "aabb" "abb" = 86 := of_decide_eq_true (by with_unfolding_all rfl)
example : match_score "банан" "банан" = 100 := of_decide_eq_true (by with_unfolding_all rfl)
example : match_score "aaaab" "aaaac" = 80 := of_decide_eq_true (by with_unfolding_all rfl)
example : match_score "aaaab" "zzz" = 0 := of_decide_eq_true (by with_unfolding_all rfl)

example : weighted_median [50, 52, 950, 53, 54] [95, 94, 93, 40, 30] = 52 :=
  of_decide_eq_true (by with_unfolding_all rfl)
example : weighted_median [50, 52, 53, 54] [95, 94, 40, 30] = 52 :=
  of_decide_eq_true (by with_unfolding_all rfl)

example : parse_serving_g (some "1 bar (40g)") = some 40 := by decide
example : parse_serving_g (some "250ml") = some 250 := by decide
example : parse_serving_g (some "x") = none := by decide

example : parse_amount_suffix "250гр" = (some 250, some "g") := by decide
example : parse_amount_suffix "250 мл" = (some 250, some "ml") := by decide

example : split_food_and_amount "банан 1шт" = ("банан", some 1, some "piece") := by decide
example : split_food_and_amount "рис 150" = ("рис", some 150, some "g") := by decide
example : split_food_and_amount "banana 1 piece" = ("banana", some 1, some "piece") := by decide

example : parse_float "120" = some (.num 120) := of_decide_eq_true (by with_unfolding_all rfl)
example : parse_float " 12,5 " = some (.num (25 / 2)) := of_decide_eq_true (by with_unfolding_all rfl)
example : parse_float "abc" = none := of_decide_eq_true (by with_unfolding_all rfl)
example : parse_float "1e3" = some (.num 1000) := of_decide_eq_true (by with_unfolding_all rfl)
example : parse_float "1_0.5" = some (.num (21 / 2)) := of_decide_eq_true (by with_unfolding_all rfl)
example : parse_float "1_" = none := of_decide_eq_true (by with_unfolding_all rfl)
example : parse_float "NaN" = some .pynan := of_decide_eq_true (by with_unfolding_all rfl)
example : parse_float "-Infinity" = some .pyninf := of_decide_eq_true (by with_unfolding_all rfl)

/-- C8: with the learned food "banana" (89 kcal/100g, no serving size),
`/log_food banana 1 piece` moves to the awaiting-serving-grams state without
logging anything; answering "120" logs 89·120/100 = 106.8 kcal for 120 g and
persists `serving_g = 120` on the "banana" record. -/
theorem banana_serving_flow :
    bananaW1.fl = FLState.waiting_serving_g
    ∧ bananaW1.logged_calories = 0
    ∧ bananaW1.custom_foods = bananaFoods
    ∧ bananaW2.lastLog = some ("banana", 120, 106.8)
    ∧ bananaW2.logged_calories = 106.8
    ∧ lookupFood "banana" bananaW2.custom_foods =
        some { name := "banana", kcal_100g := 89, serving_g := some 120, source := "learned" }
    ∧ bananaW2.fl = FLState.idle :=
  of_decide_eq_true (by with_unfolding_all rfl)

/-- C1 counterexample: a successful barcode lookup returns confidence 100,
so the resolution confidence is not bounded by 95 on the barcode shortcut. -/
theorem barcode_confidence_100 :
    (estimate_food_option "12345678" [] (some barcodeProduct) []).note = "barcode"
    ∧ (estimate_food_option "12345678" [] (some barcodeProduct) []).confidence = 100
    ∧ ¬ (estimate_food_option "12345678" [] (some barcodeProduct) []).confidence ≤ 95 :=
  of_decide_eq_true (by with_unfolding_all rfl)

/-- C3 counterexample: the query "12345678" normalizes to a stored key, yet
the barcode shortcut answers first (source barcode, confidence 100), not
`custom_exact` with confidence 95. -/
theorem barcode_shadows_custom_exact :
    normalize_food_name "12345678" = "12345678"
    ∧ lookupFood "12345678" barcodeKeyFoods = some { name := "12345678", kcal_100g := 50 }
    ∧ (estimate_food_option "12345678" barcodeKeyFoods (some barcodeProduct) []).note = "barcode"
    ∧ (estimate_food_option "12345678" barcodeKeyFoods (some barcodeProduct) []).confidence ≠ 95
    ∧ ((estimate_food_option "12345678" barcodeKeyFoods (some barcodeProduct) []).chosen.map
        (·.source)) ≠ some "custom_exact" :=
  of_decide_eq_true (by with_unfolding_all rfl)

/-- C4 counterexample: a stored record with `kcal_100g = 0` is returned
verbatim as a resolved candidate with `kcal100g = 0`, not `> 0`. -/
theorem custom_zero_kcal_candidate :
    (estimate_food_option "x" zeroKcalFoods none []).status = "ok"
    ∧ (estimate_food_option "x" zeroKcalFoods none []).chosen =
        some ⟨"x", 0, 100, "custom_exact", none⟩
    ∧ ¬ (0 : ℚ) < 0 :=
  of_decide_eq_true (by with_unfolding_all rfl)

/-- C5 counterexample: "aab" and "abb" tie at fuzzy score 86 against the
query "aabb"; reversing the mapping's iteration order changes the returned
candidate, so the tie is broken by insertion order, not a fixed key order. -/
theorem fuzzy_tie_order_dependent :
    match_score "aabb" "aab" = match_score "aabb" "abb"
    ∧ foodsAB.reverse = [("abb", recB), ("aab", recA)]
    ∧ best_custom_match "aabb" foodsAB = some ⟨"A", 50, 86, "custom_fuzzy", none⟩
    ∧ best_custom_match "aabb" foodsAB.reverse = some ⟨"B", 60, 86, "custom_fuzzy", none⟩
    ∧ best_custom_match "aabb" foodsAB ≠ best_custom_match "aabb" foodsAB.reverse :=
  of_decide_eq_true (by with_unfolding_all rfl)

/-- C2 counterexample: candidates scoring (80, 50 kcal), (80, 60 kcal) and
(0, 55 kcal) resolve to kcal 55 — the weighted median with the source's
weights `max(1, score)` — whereas the weighted median with the raw scores as
weights is 50. -/
theorem robust_weights_not_raw_scores :
    (estimate_food_option "aaaab" [] none [offP1, offP2, offP3]).status = "ok"
    ∧ (estimate_food_option "aaaab" [] none [offP1, offP2, offP3]).chosen =
        some ⟨"aaaac", 55, 80, "off_robust", none⟩
    ∧ match_score "aaaab" (normalize_food_name "aaaac") = 80
    ∧ match_score "aaaab" (normalize_food_name "aaaad") = 80
    ∧ match_score "aaaab" (normalize_food_name "zzz") = 0
    ∧ weighted_median [50, 60, 55] [80, 80, 0] = 50
    ∧ (55 : ℚ) ≠ 50 :=
  of_decide_eq_true (by with_unfolding_all rfl)

theorem offConfidence_le (a b n : Nat) : offConfidence a b n ≤ 95 :=
  Nat.min_le_left _ _

theorem rankAndResolve_conf_le (options : List FoodOption) :
    (rankAndResolve options).confidence ≤ 95 := by
  unfold rankAndResolve
  split
  · exact Nat.zero_le _
  · dsimp only
    rw [apply_ite (fun r : ResolutionResult => r.confidence), ite_self]
    exact offConfidence_le _ _ _

/-- C1 (amended): the resolution confidence is at most 95 in every branch
except a successful barcode lookup, whose result (note "barcode") carries
confidence exactly 100; hence confidence never exceeds 100. -/
theorem confidence_le_95_except_barcode (query : String)
    (custom_foods : List (String × FoodRec)) (bcResp : Option Product)
    (searchResp : List Product) :
    (estimate_food_option query custom_foods bcResp searchResp).confidence ≤ 100
    ∧ ((estimate_food_option query custom_foods bcResp searchResp).note ≠ "barcode" →
        (estimate_food_option query custom_foods bcResp searchResp).confidence ≤ 95) := by
  unfold estimate_food_option
  dsimp only
  split
  · exact ⟨Nat.zero_le _, fun _ => Nat.zero_le _⟩
  · split
    · exact ⟨Nat.le_refl _, fun h => absurd rfl h⟩
    · split
      · rename_i c hc
        split
        · constructor
          · dsimp only
            split
            · omega
            · have := Nat.min_le_left 90 c.score
              omega
          · intro _
            dsimp only
            split
            · omega
            · have := Nat.min_le_left 90 c.score
              omega
        · rename_i hor
          simp only [Bool.or_eq_true, decide_eq_true_eq] at hor
          push_neg at hor
          have h84 : c.score < 85 := hor.2
          exact ⟨by dsimp only; omega, fun _ => by dsimp only; omega⟩
      · have hb := rankAndResolve_conf_le (buildOptions (normalize_food_name ⟨pyStrip query.data⟩) searchResp)
        constructor
        · exact Nat.le_trans (by exact hb) (by omega)
        · intro _
          exact hb

/-- Witness for `confidence_le_95_except_barcode`: a concrete non-barcode run
stays within the 95 bound. -/
theorem confidence_le_95_witness :
    (estimate_food_option "banana" [] none []).confidence ≤ 95 :=
  (confidence_le_95_except_barcode "banana" [] none []).2
    (of_decide_eq_true (by with_unfolding_all rfl))

theorem normalize_empty : normalize_food_name "" = "" := by decide

/-- The `not qn or not custom_foods` guard of `best_custom_match` is redundant
once `qn` is nonempty: on an empty mapping both lookups fail anyway. -/
theorem best_custom_match_eq (query : String) (foods : List (String × FoodRec))
    (hqn : normalize_food_name query ≠ "") :
    best_custom_match query foods =
      match lookupFood (normalize_food_name query) foods with
      | some rec => some ⟨recDisplay rec query, rec.kcal_100g, 100, "custom_exact", rec.serving_g⟩
      | none =>
        match bestFuzzy (normalize_food_name query) foods with
        | none => none
        | some (key, sc) =>
          if sc < 70 then none
          else
            match lookupFood key foods with
            | none => none
            | some rec =>
              some ⟨recDisplay rec key, rec.kcal_100g, sc, "custom_fuzzy", rec.serving_g⟩ := by
  unfold best_custom_match
  cases foods with
  | nil => simp [lookupFood, bestFuzzy]
  | cons p rest =>
    rw [if_neg]
    simp [hqn]

/-- With a nonempty stripped query and an inactive barcode shortcut,
`estimate_food_option` is the local-match policy over `best_custom_match`,
falling through to the external branch. -/
theorem estimate_eq_custom (query : String) (foods : List (String × FoodRec))
    (bc : Option Product) (search : List Product)
    (hraw : (⟨pyStrip query.data⟩ : String) ≠ "")
    (hbc : (if isBarcodeText (pyStrip query.data) then
        food_by_barcode ⟨pyStrip query.data⟩ bc else none) = none) :
    estimate_food_option query foods bc search =
      match best_custom_match ⟨pyStrip query.data⟩ foods with
      | some c =>
        if c.source = "custom_exact" || 85 ≤ c.score then
          ⟨"ok", some c, [c],
            (if c.source = "custom_exact" then 95 else min 90 c.score), c.source⟩
        else ⟨"choose", none, [c], c.score, "custom_fuzzy_low"⟩
      | none => externalResolve (normalize_food_name ⟨pyStrip query.data⟩) search := by
  unfold estimate_food_option
  rw [if_neg hraw, hbc]

/-- C3 (amended): unless the query is a pure 8–14 digit string whose barcode
lookup succeeds (that shortcut answers first), and provided the normalized
query is nonempty (an empty normalization never reaches the matcher): an
exact key match resolves with confidence 95 and source custom_exact; a best
fuzzy score ≥ 85 resolves with confidence min(90, score) and source
custom_fuzzy; a best score in [70, 85) asks the user to confirm that single
candidate; a best score below 70 falls through to external retrieval. -/
theorem local_match_policy (query : String) (foods : List (String × FoodRec))
    (bc : Option Product) (search : List Product)
    (hqn : normalize_food_name ⟨pyStrip query.data⟩ ≠ "")
    (hbc : (if isBarcodeText (pyStrip query.data) then
        food_by_barcode ⟨pyStrip query.data⟩ bc else none) = none) :
    (∀ rec, lookupFood (normalize_food_name ⟨pyStrip query.data⟩) foods = some rec →
        estimate_food_option query foods bc search =
          ⟨"ok",
           some ⟨recDisplay rec ⟨pyStrip query.data⟩, rec.kcal_100g, 100, "custom_exact",
             rec.serving_g⟩,
           [⟨recDisplay rec ⟨pyStrip query.data⟩, rec.kcal_100g, 100, "custom_exact",
             rec.serving_g⟩],
           95, "custom_exact"⟩)
    ∧ (lookupFood (normalize_food_name ⟨pyStrip query.data⟩) foods = none →
        ∀ key sc, bestFuzzy (normalize_food_name ⟨pyStrip query.data⟩) foods = some (key, sc) →
          ∀ rec, lookupFood key foods = some rec →
            (85 ≤ sc →
              estimate_food_option query foods bc search =
                ⟨"ok",
                 some ⟨recDisplay rec key, rec.kcal_100g, sc, "custom_fuzzy", rec.serving_g⟩,
                 [⟨recDisplay rec key, rec.kcal_100g, sc, "custom_fuzzy", rec.serving_g⟩],
                 min 90 sc, "custom_fuzzy"⟩)
            ∧ (70 ≤ sc → sc < 85 →
              estimate_food_option query foods bc search =
                ⟨"choose", none,
                 [⟨recDisplay rec key, rec.kcal_100g, sc, "custom_fuzzy", rec.serving_g⟩],
                 sc, "custom_fuzzy_low"⟩)
            ∧ (sc < 70 →
              estimate_food_option query foods bc search =
                externalResolve (normalize_food_name ⟨pyStrip query.data⟩) search))
    ∧ (lookupFood (normalize_food_name ⟨pyStrip query.data⟩) foods = none →
        bestFuzzy (normalize_food_name ⟨pyStrip query.data⟩) foods = none →
        estimate_food_option query foods bc search =
          externalResolve (normalize_food_name ⟨pyStrip query.data⟩) search) := by
  have hraw : (⟨pyStrip query.data⟩ : String) ≠ "" := by
    intro h
    exact hqn (by rw [h]; exact normalize_empty)
  rw [estimate_eq_custom query foods bc search hraw hbc,
      best_custom_match_eq _ foods hqn]
  refine ⟨?_, ?_, ?_⟩
  · intro rec h
    rw [h]
    simp
  · intro hnone key sc hbf rec hlk
    refine ⟨?_, ?_, ?_⟩
    · intro h85
      rw [hnone, hbf]
      dsimp only
      rw [if_neg (by omega), hlk]
      dsimp only
      rw [if_pos (by simp [h85])]
      simp
    · intro h70 h85
      rw [hnone, hbf]
      dsimp only
      rw [if_neg (by omega), hlk]
      dsimp only
      rw [if_neg (by simp; omega)]
    · intro h70
      rw [hnone, hbf]
      dsimp only
      rw [if_pos h70]
  · intro hnone hbfn
    rw [hnone, hbfn]

/-- Witness for `local_match_policy`: an exact match on a concrete mapping. -/
theorem local_match_policy_witness :
    estimate_food_option "banana" bananaFoods none [] =
      ⟨"ok", some ⟨"banana", 89, 100, "custom_exact", none⟩,
       [⟨"banana", 89, 100, "custom_exact", none⟩], 95, "custom_exact"⟩ :=
  (local_match_policy "banana" bananaFoods none []
      (of_decide_eq_true (by with_unfolding_all rfl))
      (of_decide_eq_true (by with_unfolding_all rfl))).1
    { name := "banana", kcal_100g := 89, source := "learned" }
    (of_decide_eq_true (by with_unfolding_all rfl))

/-- Invariant of the running-best loop in `best_custom_match`: starting from
an accumulator, the final best either is the accumulator (nothing beat it) or
is the first later entry that strictly beat everything before it. -/
theorem bestFuzzy_go (qn : String) :
    ∀ (fs : List (String × FoodRec)) (k0 : String) (s0 : Nat) (k : String) (s : Nat),
      List.foldl
        (fun best kr =>
          let s := match_score qn kr.1
          match best with
          | none => some (kr.1, s)
          | some b => if b.2 < s then some (kr.1, s) else some b)
        (some (k0, s0)) fs = some (k, s) →
      ((k, s) = (k0, s0) ∧ ∀ p ∈ fs, match_score qn p.1 ≤ s0)
      ∨ (∃ pre rec post, fs = pre ++ (k, rec) :: post ∧ match_score qn k = s ∧ s0 < s
          ∧ (∀ p ∈ pre, match_score qn p.1 < s) ∧ (∀ p ∈ post, match_score qn p.1 ≤ s)) := by
  intro fs
  induction fs with
  | nil =>
    intro k0 s0 k s h
    simp only [List.foldl_nil, Option.some.injEq] at h
    exact Or.inl ⟨h.symm, by simp⟩
  | cons p rest ih =>
    intro k0 s0 k s h
    simp only [List.foldl_cons] at h
    dsimp only at h
    by_cases hlt : s0 < match_score qn p.1
    · rw [if_pos hlt] at h
      rcases ih p.1 (match_score qn p.1) k s h with ⟨heq, hall⟩ | ⟨pre, rec, post, heq, hsc, hgt, hpre, hpost⟩
      · have hk : k = p.1 := congrArg Prod.fst heq
        have hs : s = match_score qn p.1 := congrArg Prod.snd heq
        refine Or.inr ⟨[], p.2, rest, ?_, ?_, ?_, ?_, ?_⟩
        · simp [hk]
        · rw [hk, hs]
        · omega
        · simp
        · intro q hq
          rw [hs]
          exact hall q hq
      · refine Or.inr ⟨p :: pre, rec, post, by simp [heq], hsc, by omega, ?_, hpost⟩
        intro q hq
        rcases List.mem_cons.mp hq with hq | hq
        · rw [hq]; omega
        · exact hpre q hq
    · rw [if_neg hlt] at h
      rcases ih k0 s0 k s h with ⟨heq, hall⟩ | ⟨pre, rec, post, heq, hsc, hgt, hpre, hpost⟩
      · refine Or.inl ⟨heq, ?_⟩
        intro q hq
        rcases List.mem_cons.mp hq with hq | hq
        · rw [hq]; omega
        · exact hall q hq
      · refine Or.inr ⟨p :: pre, rec, post, by simp [heq], hsc, hgt, ?_, hpost⟩
        intro q hq
        rcases List.mem_cons.mp hq with hq | hq
        · rw [hq]; omega
        · exact hpre q hq

/-- C5 (amended): the local fuzzy matcher keeps the first stored key attaining
the maximal similarity score in the mapping's iteration order; a score tie is
broken by insertion position, not by a fixed order on keys, so permuting the
mapping can change which candidate is returned. -/
theorem fuzzy_first_max_wins (qn : String) (foods : List (String × FoodRec))
    (k : String) (s : Nat) (h : bestFuzzy qn foods = some (k, s)) :
    ∃ pre rec post, foods = pre ++ (k, rec) :: post
      ∧ match_score qn k = s
      ∧ (∀ p ∈ pre, match_score qn p.1 < s)
      ∧ (∀ p ∈ foods, match_score qn p.1 ≤ s) := by
  cases foods with
  | nil => simp [bestFuzzy] at h
  | cons p rest =>
    unfold bestFuzzy at h
    simp only [List.foldl_cons] at h
    rcases bestFuzzy_go qn rest p.1 (match_score qn p.1) k s h with
      ⟨heq, hall⟩ | ⟨pre, rec, post, heq, hsc, hgt, hpre, hpost⟩
    · have hk : k = p.1 := congrArg Prod.fst heq
      have hs : s = match_score qn p.1 := congrArg Prod.snd heq
      refine ⟨[], p.2, rest, by simp [hk], by rw [hk, hs], by simp, ?_⟩
      intro q hq
      rcases List.mem_cons.mp hq with hq | hq
      · rw [hq, hs]
      · rw [hs]; exact hall q hq
    · refine ⟨p :: pre, rec, post, by simp [heq], hsc, ?_, ?_⟩
      · intro q hq
        rcases List.mem_cons.mp hq with hq | hq
        · rw [hq]; omega
        · exact hpre q hq
      · intro q hq
        rw [heq] at hq
        rcases List.mem_cons.mp hq with hq | hq
        · rw [hq]; omega
        · rcases List.mem_append.mp hq with hq | hq
          · exact Nat.le_of_lt (hpre q hq)
          · rcases List.mem_cons.mp hq with hq | hq
            · rw [hq]; exact Nat.le_of_eq hsc
            · exact hpost q hq

/-- Witness for `fuzzy_first_max_wins`: applied to the tied mapping, the
winner "aab" is the first key of maximal score 86. -/
theorem fuzzy_first_max_witness :
    ∃ pre rec post, foodsAB = pre ++ ("aab", rec) :: post
      ∧ match_score "aabb" "aab" = 86
      ∧ (∀ p ∈ pre, match_score "aabb" p.1 < 86)
      ∧ (∀ p ∈ foodsAB, match_score "aabb" p.1 ≤ 86) :=
  fuzzy_first_max_wins "aabb" foodsAB "aab" 86
    (of_decide_eq_true (by with_unfolding_all rfl))

/-- C2 (amended): with the external candidates ranked by score (stable,
descending) and cut to the top five, the plausible kcal values (strictly
between 0 and 900) are paired with weights `max(1, score)` — not the raw
scores — and whenever the result is resolved, the chosen candidate carries
the weighted median of those values with source off_robust if at least three
plausible values remain, else the top candidate's own kcal verbatim with
source off_best. On the spec's example — scores/kcal (95,50) (94,52)
(93,950) (40,53) (30,54) — the 950 entry is filtered out and the result is
resolved with kcal 52, confidence 90, source off_robust. -/
theorem external_aggregation (options : List FoodOption) (b : FoodOption)
    (rest : List FoodOption) (hsort : sortDescFO options = b :: rest) :
    ((rankAndResolve options).status = "ok" →
      (rankAndResolve options).chosen = some
        (if 3 ≤ (((b :: rest).take 5).filter plausB).length then
          ⟨b.name,
           weighted_median ((((b :: rest).take 5).filter plausB).map (·.kcal_100g))
             ((((b :: rest).take 5).filter plausB).map fun o => max 1 (o.score : ℚ)),
           b.score, "off_robust", b.serving_g⟩
        else ⟨b.name, b.kcal_100g, b.score, "off_best", b.serving_g⟩))
    ∧ rankAndResolve ex5 =
        ⟨"ok", some ⟨"A", 52, 95, "off_robust", none⟩,
         [⟨"A", 50, 95, "off", none⟩, ⟨"B", 52, 94, "off", none⟩, ⟨"C", 950, 93, "off", none⟩],
         90, "off_robust"⟩ := by
  constructor
  · intro hok
    unfold rankAndResolve at hok ⊢
    rw [hsort] at hok ⊢
    dsimp only at hok ⊢
    split at hok
    · simp at hok
    · rename_i hc
      rw [if_neg hc]
      simp only [List.length_map]
  · exact of_decide_eq_true (by with_unfolding_all rfl)

/-- Witness for `external_aggregation` at the spec's five-candidate example. -/
theorem external_aggregation_witness :
    (rankAndResolve ex5).chosen = some ⟨"A", 52, 95, "off_robust", none⟩ := by
  have h := (external_aggregation ex5 ⟨"A", 50, 95, "off", none⟩
      [⟨"B", 52, 94, "off", none⟩, ⟨"C", 950, 93, "off", none⟩,
       ⟨"D", 53, 40, "off", none⟩, ⟨"E", 54, 30, "off", none⟩]
      (of_decide_eq_true (by with_unfolding_all rfl))).1
    (of_decide_eq_true (by with_unfolding_all rfl))
  rw [h]
  exact of_decide_eq_true (by with_unfolding_all rfl)

/-- C9: the claim fails on the code. `float("nan")` parses — so the prompts'
parse step accepts the input "nan" — and NaN is not equal to any rational
value, in particular to none in the accepted ranges; yet the range guard of
each of the three numeric prompts (grams bound 5000, kcal bound 2000, serving
bound 2000) evaluates to false on NaN, because every IEEE comparison with NaN
is false. The handlers therefore proceed on "nan", advancing state and
persisting NaN, instead of rejecting it in place. The two infinities, by
contrast, are caught by the guard, so NaN is the only non-finite value that
slips through. -/
theorem nan_passes_range_guards :
    parse_float "nan" = some PyFloat.pynan
    ∧ promptRejects PyFloat.pynan 5000 = false
    ∧ promptRejects PyFloat.pynan 2000 = false
    ∧ (∀ q : ℚ, PyFloat.pynan ≠ PyFloat.num q)
    ∧ promptRejects PyFloat.pyinf 5000 = true
    ∧ promptRejects PyFloat.pyninf 2000 = true :=
  ⟨by with_unfolding_all rfl, rfl, rfl, fun q h => PyFloat.noConfusion h, rfl, rfl⟩

/-- C10: the food/amount splitter extracts a quantity only from inputs with
at least two whitespace-separated tokens; any single-token input — a bare
number like "250" included — comes back whole as the food query with no
amount and no unit. -/
theorem single_token_no_amount (args : String)
    (h : (splitWs (pyStrip args.data)).length ≤ 1) :
    split_food_and_amount args = (⟨pyStrip args.data⟩, none, none) := by
  unfold split_food_and_amount
  dsimp only
  split
  · rename_i htext
    have hnil : pyStrip args.data = [] := by
      simpa using htext
    rw [hnil]
  · rw [if_neg (by omega)]

/-- Witness for `single_token_no_amount` on the bare number "250". -/
theorem single_token_no_amount_witness :
    split_food_and_amount "250" = ("250", none, none) :=
  single_token_no_amount "250" (of_decide_eq_true (by with_unfolding_all rfl))

/-!
Facts about the number-prefix reader `takeNum`, used to settle the quantity
parser claim: appending a non-numeric tail to a complete numeral leaves the
value intact and the tail as the remainder.
-/

theorem takeWhile_append_all (p : Char → Bool) (xs ys : List Char)
    (h : ∀ c ∈ xs, p c = true) :
    (xs ++ ys).takeWhile p = xs ++ ys.takeWhile p := by
  induction xs with
  | nil => simp
  | cons c cs ih =>
    rw [List.cons_append, List.takeWhile_cons, if_pos (h c (by simp)),
        ih (fun d hd => h d (by simp [hd]))]
    simp

theorem dropWhile_append_all (p : Char → Bool) (xs ys : List Char)
    (h : ∀ c ∈ xs, p c = true) :
    (xs ++ ys).dropWhile p = ys.dropWhile p := by
  induction xs with
  | nil => simp
  | cons c cs ih =>
    rw [List.cons_append, List.dropWhile_cons, if_pos (h c (by simp))]
    exact ih (fun d hd => h d (by simp [hd]))

theorem takeWhile_head_false (p : Char → Bool) (t : List Char)
    (h : ∀ c, t.head? = some c → p c = false) : t.takeWhile p = [] := by
  cases t with
  | nil => rfl
  | cons c cs => rw [List.takeWhile_cons, if_neg (by simp [h c rfl])]

theorem dropWhile_head_false (p : Char → Bool) (t : List Char)
    (h : ∀ c, t.head? = some c → p c = false) : t.dropWhile p = t := by
  cases t with
  | nil => rfl
  | cons c cs => rw [List.dropWhile_cons, if_neg (by simp [h c rfl])]

theorem headNotNum_head (t : List Char) (ht : headNotNum t = true) :
    ∀ c, t.head? = some c → isDigitC c = false := by
  cases t with
  | nil => intro c h; cases h
  | cons c cs =>
    intro d h
    cases h
    simp only [headNotNum, Bool.and_eq_true, Bool.not_eq_true'] at ht
    exact ht.1

theorem headNotNum_dot {c : Char} {r : List Char} (ht : headNotNum (c :: r) = true) :
    c ≠ '.' := by
  simp only [headNotNum, Bool.and_eq_true, Bool.not_eq_true', decide_eq_false_iff_not] at ht
  exact ht.2

/-- A string fully consumed by `takeNum` is a digit run, optionally followed
by a dot and a second digit run. -/
theorem takeNum_complete (s : List Char) (v : ℚ) (hs : takeNum s = some (v, [])) :
    (s ≠ [] ∧ (∀ c ∈ s, isDigitC c = true) ∧ v = (digitsToNat s : ℚ))
    ∨ (∃ ds fs, s = ds ++ '.' :: fs ∧ ds ≠ [] ∧ fs ≠ []
        ∧ (∀ c ∈ ds, isDigitC c = true) ∧ (∀ c ∈ fs, isDigitC c = true)
        ∧ v = (digitsToNat ds : ℚ) + (digitsToNat fs : ℚ) / (10 : ℚ) ^ fs.length) := by
  have hsplit := List.takeWhile_append_dropWhile isDigitC s
  have hdig : ∀ c ∈ s.takeWhile isDigitC, isDigitC c = true :=
    fun c hc => List.mem_takeWhile_imp hc
  unfold takeNum at hs
  by_cases hds : (s.takeWhile isDigitC).isEmpty
  · rw [if_pos hds] at hs
    exact absurd hs (by simp)
  · rw [if_neg hds] at hs
    cases hrest : s.dropWhile isDigitC with
    | nil =>
      have hseq : s.takeWhile isDigitC = s := by
        conv_rhs => rw [← hsplit]
        rw [hrest, List.append_nil]
      rw [hrest] at hs
      dsimp only at hs
      rw [hseq] at hs hdig hds
      simp only [Option.some.injEq, Prod.mk.injEq, and_true] at hs
      left
      refine ⟨?_, hdig, hs.symm⟩
      intro h
      rw [h] at hds
      simp at hds
    | cons c r =>
      rw [hrest] at hs
      dsimp only at hs
      split at hs
      · rename_i r2 heq
        obtain ⟨hc, hr⟩ := List.cons_eq_cons.mp heq
        subst hc
        subst hr
        split at hs
        · exact absurd hs (by simp)
        · rename_i hfs
          simp only [Option.some.injEq, Prod.mk.injEq] at hs
          right
          refine ⟨s.takeWhile isDigitC, r.takeWhile isDigitC, ?_, ?_, ?_, hdig, ?_, ?_⟩
          · have hr2 : r.takeWhile isDigitC = r := by
              conv_rhs => rw [← List.takeWhile_append_dropWhile isDigitC r]
              rw [hs.2, List.append_nil]
            rw [hr2]
            conv_lhs => rw [← hsplit, hrest]
          · simpa [List.isEmpty_iff] using hds
          · simpa [List.isEmpty_iff] using hfs
          · exact fun c hc => List.mem_takeWhile_imp hc
          · exact hs.1.symm
      · rename_i hnotdot
        exact absurd hs (by simp)

theorem takeNum_digits_append (ds t : List Char) (hne : ds ≠ [])
    (hd : ∀ c ∈ ds, isDigitC c = true) (ht : headNotNum t = true) :
    takeNum (ds ++ t) = some ((digitsToNat ds : ℚ), t) := by
  unfold takeNum
  rw [takeWhile_append_all isDigitC ds t hd,
      takeWhile_head_false isDigitC t (headNotNum_head t ht), List.append_nil,
      dropWhile_append_all isDigitC ds t hd,
      dropWhile_head_false isDigitC t (headNotNum_head t ht),
      if_neg (by simpa [List.isEmpty_iff] using hne)]
  dsimp only
  cases t with
  | nil => rfl
  | cons c r =>
    split
    · rename_i r2 heq
      obtain ⟨hc, _⟩ := List.cons_eq_cons.mp heq
      exact absurd hc (headNotNum_dot ht)
    · rfl

theorem takeNum_frac_append (ds fs t : List Char) (hdne : ds ≠ []) (hfne : fs ≠ [])
    (hd : ∀ c ∈ ds, isDigitC c = true) (hf : ∀ c ∈ fs, isDigitC c = true)
    (ht : headNotNum t = true) :
    takeNum (ds ++ ('.' :: (fs ++ t))) =
      some ((digitsToNat ds : ℚ) + (digitsToNat fs : ℚ) / (10 : ℚ) ^ fs.length, t) := by
  unfold takeNum
  rw [takeWhile_append_all isDigitC ds _ hd,
      show List.takeWhile isDigitC ('.' :: (fs ++ t)) = [] from by
        rw [List.takeWhile_cons, if_neg (by decide)],
      List.append_nil,
      dropWhile_append_all isDigitC ds _ hd,
      show List.dropWhile isDigitC ('.' :: (fs ++ t)) = '.' :: (fs ++ t) from by
        rw [List.dropWhile_cons, if_neg (by decide)],
      if_neg (by simpa [List.isEmpty_iff] using hdne)]
  dsimp only
  split
  · rename_i r2 heq
    obtain ⟨-, hr⟩ := List.cons_eq_cons.mp heq
    subst hr
    rw [takeWhile_append_all isDigitC fs t hf,
        takeWhile_head_false isDigitC t (headNotNum_head t ht), List.append_nil,
        if_neg (by simpa [List.isEmpty_iff] using hfne),
        dropWhile_append_all isDigitC fs t hf,
        dropWhile_head_false isDigitC t (headNotNum_head t ht)]
  · rename_i hnot
    exact absurd rfl (hnot (fs ++ t))

theorem takeNum_append (s t : List Char) (v : ℚ) (hs : takeNum s = some (v, []))
    (ht : headNotNum t = true) : takeNum (s ++ t) = some (v, t) := by
  rcases takeNum_complete s v hs with ⟨hne, hd, hv⟩ | ⟨ds, fs, hseq, hdne, hfne, hd, hf, hv⟩
  · rw [hv]
    exact takeNum_digits_append s t hne hd ht
  · subst hseq
    rw [hv, show (ds ++ '.' :: fs) ++ t = ds ++ ('.' :: (fs ++ t)) from by simp]
    exact takeNum_frac_append ds fs t hdne hfne hd hf ht

theorem ws_not_digit {c : Char} (hc : isWsC c = true) : isDigitC c = false := by
  simp only [isWsC, Bool.or_eq_true, decide_eq_true_eq] at hc
  rw [Bool.eq_false_iff]
  intro hd
  simp only [isDigitC, Bool.and_eq_true, decide_eq_true_eq] at hd
  omega

theorem ws_not_dot {c : Char} (hc : isWsC c = true) : c ≠ '.' := by
  intro h
  subst h
  exact absurd hc (by decide)

theorem headNotNum_ws_append (ws u : List Char) (hws : ∀ c ∈ ws, isWsC c = true)
    (hu : headNotNum u = true) : headNotNum (ws ++ u) = true := by
  cases ws with
  | nil => simpa using hu
  | cons c cs =>
    have hc := hws c (by simp)
    simp only [List.cons_append, headNotNum, Bool.and_eq_true, Bool.not_eq_true',
      decide_eq_false_iff_not]
    exact ⟨ws_not_digit hc, ws_not_dot hc⟩

/-- The quantity-pattern cascade on an input of the shape
"numeral, whitespace, suffix". -/
theorem parseAmountCore_eq (s ws u : List Char) (v : ℚ)
    (hs : takeNum s = some (v, [])) (hws : ∀ c ∈ ws, isWsC c = true)
    (hu : headNotNum u = true) (huw : ∀ c, u.head? = some c → isWsC c = false) :
    parseAmountCore (s ++ ws ++ u) =
      (if gramSuffixes.contains u then (some v, some "g")
       else if mlSuffixes.contains u then (some v, some "ml")
       else if pieceSuffixes.contains u then (some v, some "piece")
       else if servingSuffixes.contains u then (some v, some "serving")
       else if (ws ++ u).isEmpty then
         (if v ≤ 10 then (some v, some "auto") else (some v, some "g"))
       else (none, none)) := by
  unfold parseAmountCore
  rw [List.append_assoc, takeNum_append s (ws ++ u) v hs (headNotNum_ws_append ws u hws hu)]
  dsimp only
  rw [dropWhile_append_all isWsC ws u hws, dropWhile_head_false isWsC u huw]

/-- C7: the quantity parser classifies a trailing amount token as specified —
a bare number at most 10 is `auto` (the ambiguous small number), a bare
number above 10 is grams, and a number followed by optional whitespace and a
gram / millilitre / piece / serving suffix yields that unit; in particular
"250" is 250 g, "2шт" is 2 pieces, "1 порция" is 1 serving, "7" is the
ambiguous small number 7, and "12" is 12 g. -/
theorem parse_amount_classification :
    (∀ s v, takeNum s = some (v, []) → v ≤ 10 → parseAmountCore s = (some v, some "auto"))
    ∧ (∀ s v, takeNum s = some (v, []) → 10 < v → parseAmountCore s = (some v, some "g"))
    ∧ (∀ s v ws u, takeNum s = some (v, []) → (∀ c ∈ ws, isWsC c = true) →
        u ∈ gramSuffixes → parseAmountCore (s ++ ws ++ u) = (some v, some "g"))
    ∧ (∀ s v ws u, takeNum s = some (v, []) → (∀ c ∈ ws, isWsC c = true) →
        u ∈ mlSuffixes → parseAmountCore (s ++ ws ++ u) = (some v, some "ml"))
    ∧ (∀ s v ws u, takeNum s = some (v, []) → (∀ c ∈ ws, isWsC c = true) →
        u ∈ pieceSuffixes → parseAmountCore (s ++ ws ++ u) = (some v, some "piece"))
    ∧ (∀ s v ws u, takeNum s = some (v, []) → (∀ c ∈ ws, isWsC c = true) →
        u ∈ servingSuffixes → parseAmountCore (s ++ ws ++ u) = (some v, some "serving"))
    ∧ parse_amount_suffix "250" = (some 250, some "g")
    ∧ parse_amount_suffix "2шт" = (some 2, some "piece")
    ∧ parse_amount_suffix "1 порция" = (some 1, some "serving")
    ∧ parse_amount_suffix "7" = (some 7, some "auto")
    ∧ parse_amount_suffix "12" = (some 12, some "g") := by
  refine ⟨?_, ?_, ?_, ?_, ?_, ?_, ?_, ?_, ?_, ?_, ?_⟩
  · intro s v hs hv
    unfold parseAmountCore
    rw [hs]
    dsimp only
    rw [if_neg (by decide), if_neg (by decide), if_neg (by decide), if_neg (by decide),
        if_pos (by decide), if_pos hv]
  · intro s v hs hv
    unfold parseAmountCore
    rw [hs]
    dsimp only
    rw [if_neg (by decide), if_neg (by decide), if_neg (by decide), if_neg (by decide),
        if_pos (by decide), if_neg (not_le.mpr hv)]
  · intro s v ws u hs hws hu
    have h1 : headNotNum u = true := by fin_cases hu <;> decide
    have h2 : ∀ c, u.head? = some c → isWsC c = false := by
      fin_cases hu <;> (intro c h; cases h; decide)
    rw [parseAmountCore_eq s ws u v hs hws h1 h2, if_pos (by fin_cases hu <;> decide)]
  · intro s v ws u hs hws hu
    have h1 : headNotNum u = true := by fin_cases hu <;> decide
    have h2 : ∀ c, u.head? = some c → isWsC c = false := by
      fin_cases hu <;> (intro c h; cases h; decide)
    rw [parseAmountCore_eq s ws u v hs hws h1 h2,
        if_neg (by fin_cases hu <;> decide), if_pos (by fin_cases hu <;> decide)]
  · intro s v ws u hs hws hu
    have h1 : headNotNum u = true := by fin_cases hu <;> decide
    have h2 : ∀ c, u.head? = some c → isWsC c = false := by
      fin_cases hu <;> (intro c h; cases h; decide)
    rw [parseAmountCore_eq s ws u v hs hws h1 h2,
        if_neg (by fin_cases hu <;> decide), if_neg (by fin_cases hu <;> decide),
        if_pos (by fin_cases hu <;> decide)]
  · intro s v ws u hs hws hu
    have h1 : headNotNum u = true := by fin_cases hu <;> decide
    have h2 : ∀ c, u.head? = some c → isWsC c = false := by
      fin_cases hu <;> (intro c h; cases h; decide)
    rw [parseAmountCore_eq s ws u v hs hws h1 h2,
        if_neg (by fin_cases hu <;> decide), if_neg (by fin_cases hu <;> decide),
        if_neg (by fin_cases hu <;> decide), if_pos (by fin_cases hu <;> decide)]
  · exact of_decide_eq_true (by with_unfolding_all rfl)
  · exact of_decide_eq_true (by with_unfolding_all rfl)
  · exact of_decide_eq_true (by with_unfolding_all rfl)
  · exact of_decide_eq_true (by with_unfolding_all rfl)
  · exact of_decide_eq_true (by with_unfolding_all rfl)

/-- Witness for `parse_amount_classification`: "250 гр" split as numeral,
space, gram suffix parses to 250 grams. -/
theorem parse_amount_classification_witness :
    parseAmountCore ("250".data ++ [' '] ++ "гр".data) = (some 250, some "g") :=
  parse_amount_classification.2.2.1 "250".data 250 [' '] "гр".data
    (by with_unfolding_all rfl) (by decide) (by decide)

/-!
Positivity of every produced candidate (claim C4), given positive stored
records. Every external kcal value comes from `kcal_from_nutriments`, which
only returns positive values; the robust aggregate is drawn from the
plausible values, which are positive by the filter itself.
-/

theorem kcalAtwater_pos {n : Nutriments} {k : ℚ} (h : kcalAtwater n = some k) : 0 < k := by
  unfold kcalAtwater at h
  split at h
  · dsimp only at h
    split at h
    · rename_i hpos
      injection h with h
      exact h ▸ hpos
    · exact absurd h (by simp)
  · exact absurd h (by simp)

theorem kcalFromKj_pos {n : Nutriments} {k : ℚ} (h : kcalFromKj n = some k) : 0 < k := by
  unfold kcalFromKj at h
  dsimp only at h
  split at h
  · split at h
    · rename_i kj hkj
      injection h with h
      rw [← h]
      exact div_pos hkj (by norm_num)
    · exact kcalAtwater_pos h
  · exact kcalAtwater_pos h

theorem kcal_from_nutriments_pos {n : Nutriments} {k : ℚ}
    (h : kcal_from_nutriments n = some k) : 0 < k := by
  unfold kcal_from_nutriments at h
  split at h
  · split at h
    · rename_i hpos
      injection h with h
      exact h ▸ hpos
    · exact kcalFromKj_pos h
  · exact kcalFromKj_pos h

theorem food_by_barcode_pos {bc : String} {resp : Option Product} {o : FoodOption}
    (h : food_by_barcode bc resp = some o) : 0 < o.kcal_100g := by
  unfold food_by_barcode at h
  split at h
  · exact absurd h (by simp)
  · split at h
    · exact absurd h (by simp)
    · dsimp only at h
      split at h
      · exact absurd h (by simp)
      · rename_i kcal hk
        injection h with h
        rw [← h]
        exact kcal_from_nutriments_pos hk

theorem lookupFood_mem {key : String} {foods : List (String × FoodRec)} {rec : FoodRec}
    (h : lookupFood key foods = some rec) : (key, rec) ∈ foods := by
  induction foods with
  | nil => simp [lookupFood] at h
  | cons p rest ih =>
    unfold lookupFood at h
    split at h
    · rename_i hk
      injection h with h
      rw [← hk, ← h]
      exact List.mem_cons_self _ _
    · exact List.mem_cons_of_mem _ (ih h)

theorem best_custom_match_pos {query : String} {foods : List (String × FoodRec)}
    {c : FoodOption} (h : best_custom_match query foods = some c)
    (hf : ∀ p ∈ foods, 0 < (p.2).kcal_100g) : 0 < c.kcal_100g := by
  unfold best_custom_match at h
  dsimp only at h
  split at h
  · exact absurd h (by simp)
  · split at h
    · rename_i rec hrec
      injection h with h
      rw [← h]
      exact hf _ (lookupFood_mem hrec)
    · split at h
      · exact absurd h (by simp)
      · split at h
        · exact absurd h (by simp)
        · split at h
          · exact absurd h (by simp)
          · rename_i rec hrec
            injection h with h
            rw [← h]
            exact hf _ (lookupFood_mem hrec)

theorem mem_insertDescFO {x y : FoodOption} {l : List FoodOption} :
    x ∈ insertDescFO y l ↔ x = y ∨ x ∈ l := by
  induction l with
  | nil => simp [insertDescFO]
  | cons z zs ih =>
    unfold insertDescFO
    split
    · simp
    · simp only [List.mem_cons, ih]
      tauto

theorem mem_sortDescFO {x : FoodOption} {l : List FoodOption} :
    x ∈ sortDescFO l ↔ x ∈ l := by
  induction l with
  | nil => simp [sortDescFO]
  | cons z zs ih =>
    simp only [sortDescFO, mem_insertDescFO, List.mem_cons, ih]

theorem buildOptions_pos {qn : String} {prods : List Product} {o : FoodOption}
    (h : o ∈ buildOptions qn prods) : 0 < o.kcal_100g := by
  unfold buildOptions at h
  obtain ⟨p, -, hp⟩ := List.mem_filterMap.mp h
  unfold optionFromProduct at hp
  dsimp only at hp
  split at hp
  · exact absurd hp (by simp)
  · rename_i kcal hk
    injection hp with hp
    rw [← hp]
    exact kcal_from_nutriments_pos hk

theorem mem_insertAscQ {x y : ℚ} {l : List ℚ} : x ∈ insertAscQ y l ↔ x = y ∨ x ∈ l := by
  induction l with
  | nil => simp [insertAscQ]
  | cons z zs ih =>
    unfold insertAscQ
    split
    · simp
    · simp only [List.mem_cons, ih]
      tauto

theorem mem_sortAscQ {x : ℚ} {l : List ℚ} : x ∈ sortAscQ l ↔ x ∈ l := by
  induction l with
  | nil => simp [sortAscQ]
  | cons z zs ih => simp only [sortAscQ, mem_insertAscQ, List.mem_cons, ih]

theorem length_insertAscQ (y : ℚ) (l : List ℚ) :
    (insertAscQ y l).length = l.length + 1 := by
  induction l with
  | nil => rfl
  | cons z zs ih =>
    unfold insertAscQ
    split
    · simp
    · simp [ih]

theorem length_sortAscQ (l : List ℚ) : (sortAscQ l).length = l.length := by
  induction l with
  | nil => rfl
  | cons z zs ih => simp [sortAscQ, length_insertAscQ, ih]

theorem pyMedian_pos (xs : List ℚ) (hne : xs ≠ []) (hpos : ∀ v ∈ xs, 0 < v) :
    0 < pyMedian xs := by
  unfold pyMedian
  dsimp only
  have hlen : (sortAscQ xs).length = xs.length := length_sortAscQ xs
  have hn : 0 < xs.length := List.length_pos.mpr hne
  have hmem : ∀ i, i < xs.length → 0 < (sortAscQ xs).getD i 0 := by
    intro i hi
    apply hpos
    rw [← mem_sortAscQ]
    rw [List.getD_eq_getElem?_getD]
    have : i < (sortAscQ xs).length := hlen ▸ hi
    rw [List.getElem?_eq_getElem this]
    exact List.getElem_mem this
  rw [hlen, if_neg (by omega)]
  split
  · exact hmem _ (by omega)
  · have h1 := hmem (xs.length / 2 - 1) (by omega)
    have h2 := hmem (xs.length / 2) (by omega)
    positivity

theorem mem_insertAscP {x y : ℚ × ℚ} {l : List (ℚ × ℚ)} :
    x ∈ insertAscP y l ↔ x = y ∨ x ∈ l := by
  induction l with
  | nil => simp [insertAscP]
  | cons z zs ih =>
    unfold insertAscP
    split
    · simp
    · simp only [List.mem_cons, ih]
      tauto

theorem mem_sortAscP {x : ℚ × ℚ} {l : List (ℚ × ℚ)} : x ∈ sortAscP l ↔ x ∈ l := by
  induction l with
  | nil => simp [sortAscP]
  | cons z zs ih => simp only [sortAscP, mem_insertAscP, List.mem_cons, ih]

theorem sortAscP_eq_nil {l : List (ℚ × ℚ)} : sortAscP l = [] ↔ l = [] := by
  cases l with
  | nil => simp [sortAscP]
  | cons z zs =>
    simp only [sortAscP]
    constructor
    · intro h
      have : z ∈ insertAscP z (sortAscP zs) := mem_insertAscP.mpr (Or.inl rfl)
      rw [h] at this
      cases this
    · intro h
      cases h

theorem wmScan_mem (half : ℚ) :
    ∀ (pairs : List (ℚ × ℚ)) (cum v : ℚ), wmScan half pairs cum = some v →
      ∃ w, (v, w) ∈ pairs := by
  intro pairs
  induction pairs with
  | nil => intro cum v h; simp [wmScan] at h
  | cons p rest ih =>
    intro cum v h
    unfold wmScan at h
    split at h
    · injection h with h
      exact ⟨p.2, by rw [← h]; simp⟩
    · obtain ⟨w, hw⟩ := ih _ v h
      exact ⟨w, List.mem_cons_of_mem _ hw⟩

theorem mem_of_getLast?_eq {α : Type} : ∀ {l : List α} {a : α}, l.getLast? = some a → a ∈ l
  | [], a, h => by simp at h
  | [b], a, h => by
    simp only [List.getLast?_singleton, Option.some.injEq] at h
    simp [h]
  | b :: c :: rest, a, h => by
    rw [List.getLast?_cons_cons] at h
    exact List.mem_cons_of_mem _ (mem_of_getLast?_eq h)

theorem getLast?_eq_none_nil {α : Type} : ∀ {l : List α}, l.getLast? = none → l = []
  | [], _ => rfl
  | [b], h => by simp at h
  | b :: c :: rest, h => by
    rw [List.getLast?_cons_cons] at h
    exact absurd (getLast?_eq_none_nil h) (by simp)

theorem weighted_median_pos (values weights : List ℚ) (hne : values ≠ [])
    (hw : weights ≠ []) (hpos : ∀ v ∈ values, 0 < v) :
    0 < weighted_median values weights := by
  unfold weighted_median
  dsimp only
  split
  · exact pyMedian_pos values hne hpos
  · have hzip : values.zip weights ≠ [] := by
      cases values with
      | nil => exact absurd rfl hne
      | cons v vs =>
        cases weights with
        | nil => exact absurd rfl hw
        | cons w ws => simp
    split
    · rename_i v hscan
      obtain ⟨w, hmem⟩ := wmScan_mem _ _ _ _ hscan
      exact hpos v (List.of_mem_zip (mem_sortAscP.mp hmem)).1
    · cases hl : (sortAscP (values.zip weights)).getLast? with
      | none =>
        exact absurd (sortAscP_eq_nil.mp (getLast?_eq_none_nil hl)) hzip
      | some p =>
        have hmem : p ∈ sortAscP (values.zip weights) := mem_of_getLast?_eq hl
        simpa using hpos p.1 (List.of_mem_zip (mem_sortAscP.mp hmem)).1

theorem rankAndResolve_pos (options : List FoodOption)
    (hopt : ∀ o ∈ options, 0 < o.kcal_100g) :
    (∀ o ∈ (rankAndResolve options).options, 0 < o.kcal_100g)
    ∧ (∀ o, (rankAndResolve options).chosen = some o → 0 < o.kcal_100g) := by
  unfold rankAndResolve
  split
  · constructor
    · intro o ho; simp at ho
    · intro o ho; simp at ho
  · rename_i b rest hsort
    dsimp only
    have hsorted : ∀ o ∈ b :: rest, 0 < o.kcal_100g := by
      intro o ho
      apply hopt
      rw [← mem_sortDescFO (l := options), hsort]
      exact ho
    have hplaus : ∀ v ∈ (((b :: rest).take 5).filter plausB).map (·.kcal_100g), 0 < v := by
      intro v hv
      obtain ⟨o, ho, rfl⟩ := List.mem_map.mp hv
      have hp := List.of_mem_filter ho
      simp only [plausB, Bool.and_eq_true, decide_eq_true_eq] at hp
      exact hp.1
    split
    · constructor
      · intro o ho
        exact hsorted o (List.mem_of_mem_take ho)
      · intro o ho; simp at ho
    · constructor
      · intro o ho
        exact hsorted o (List.mem_of_mem_take ho)
      · intro o ho
        simp only [Option.some.injEq] at ho
        rw [← ho]
        split
        · rename_i h3
          rw [List.length_map] at h3
          have hplne : ((b :: rest).take 5).filter plausB ≠ [] := by
            intro hnil
            rw [hnil] at h3
            simp at h3
          dsimp only
          apply weighted_median_pos
          · simpa using hplne
          · simpa using hplne
          · exact hplaus
        · dsimp only
          exact hsorted b (by simp)

/-- C4 (amended): every candidate the pipeline returns — in the option list
or as the chosen one — has positive kcal/100g, PROVIDED every stored record
has positive kcal/100g; external and barcode candidates are unconditionally
positive (their kcal comes from `kcal_from_nutriments`), but a stored record
with a zero or negative `kcal_100g` is passed through verbatim. -/
theorem candidate_kcal_positive (query : String) (foods : List (String × FoodRec))
    (bcResp : Option Product) (searchResp : List Product)
    (hf : ∀ p ∈ foods, 0 < (p.2).kcal_100g) :
    (∀ o ∈ (estimate_food_option query foods bcResp searchResp).options, 0 < o.kcal_100g)
    ∧ (∀ o, (estimate_food_option query foods bcResp searchResp).chosen = some o →
        0 < o.kcal_100g) := by
  unfold estimate_food_option
  dsimp only
  split
  · constructor
    · intro o ho; simp at ho
    · intro o ho; simp at ho
  · split
    · rename_i opt hbc
      have hpos : 0 < opt.kcal_100g := by
        split at hbc
        · exact food_by_barcode_pos hbc
        · exact absurd hbc (by simp)
      constructor
      · intro o ho
        simp only [List.mem_singleton] at ho
        rw [ho]; exact hpos
      · intro o ho
        simp only [Option.some.injEq] at ho
        rw [← ho]; exact hpos
    · split
      · rename_i c hc
        have hpos := best_custom_match_pos hc hf
        split
        · constructor
          · intro o ho
            simp only [List.mem_singleton] at ho
            rw [ho]; exact hpos
          · intro o ho
            simp only [Option.some.injEq] at ho
            rw [← ho]; exact hpos
        · constructor
          · intro o ho
            simp only [List.mem_singleton] at ho
            rw [ho]; exact hpos
          · intro o ho; simp at ho
      · exact rankAndResolve_pos _ (fun o ho => buildOptions_pos ho)

/-- Witness for `candidate_kcal_positive`: the resolved "banana" candidate
has positive kcal. -/
theorem candidate_kcal_positive_witness :
    0 < (⟨"banana", 89, 100, "custom_exact", none⟩ : FoodOption).kcal_100g :=
  (candidate_kcal_positive "banana" bananaFoods none []
      (by
        intro p hp
        fin_cases hp
        exact of_decide_eq_true (by with_unfolding_all rfl))).2
    ⟨"banana", 89, 100, "custom_exact", none⟩
    (of_decide_eq_true (by with_unfolding_all rfl))

/-!
Idempotence of the normalizer (claim C6). A normalized string is a
space-separated join of nonempty stop-word-free words over `[0-9a-zа-я]`;
every pipeline stage is the identity on such strings.
-/

theorem map_eq_self_of {f : Char → Char} {l : List Char} (h : ∀ c ∈ l, f c = c) :
    l.map f = l := by
  induction l with
  | nil => rfl
  | cons c cs ih => rw [List.map_cons, h c (by simp), ih (fun d hd => h d (by simp [hd]))]

theorem takeWhile_all (p : Char → Bool) (xs : List Char) (h : ∀ c ∈ xs, p c = true) :
    xs.takeWhile p = xs := by
  have := takeWhile_append_all p xs [] h
  simpa using this

theorem dropWhile_all (p : Char → Bool) (xs : List Char) (h : ∀ c ∈ xs, p c = true) :
    xs.dropWhile p = [] := by
  have := dropWhile_append_all p xs [] h
  simpa using this

theorem allowed_not_ws {c : Char} (h : allowedChar c = true) : isWsC c = false := by
  simp only [allowedChar, Bool.or_eq_true, Bool.and_eq_true, decide_eq_true_eq] at h
  rw [Bool.eq_false_iff]
  intro hw
  simp only [isWsC, Bool.or_eq_true, decide_eq_true_eq] at hw
  omega

theorem clean_lower {c : Char} (h : allowedChar c = true ∨ c = ' ') : pyLower c = c := by
  rcases h with h | h
  · simp only [allowedChar, Bool.or_eq_true, Bool.and_eq_true, decide_eq_true_eq] at h
    unfold pyLower
    rw [if_neg (by omega), if_neg (by omega), if_neg (by omega)]
  · subst h
    decide

theorem clean_yo {c : Char} (h : allowedChar c = true ∨ c = ' ') :
    (if c = 'ё' then 'е' else c) = c := by
  rw [if_neg]
  rcases h with h | h
  · intro he
    subst he
    revert h
    decide
  · subst h
    decide

theorem clean_not_lparen {c : Char} (h : allowedChar c = true ∨ c = ' ') : c ≠ '(' := by
  rcases h with h | h
  · intro he
    subst he
    revert h
    decide
  · subst h
    decide

theorem clean_not_bad {c : Char} (h : allowedChar c = true ∨ c = ' ') : badChar c = false := by
  rcases h with h | h
  · simp [badChar, h]
  · subst h
    decide

theorem stripParensAux_id : ∀ (fuel : Nat) (l : List Char), (∀ c ∈ l, c ≠ '(') →
    stripParensAux fuel l = l := by
  intro fuel
  induction fuel with
  | zero => intro l _; rfl
  | succ f ih =>
    intro l h
    cases l with
    | nil => rfl
    | cons c cs =>
      simp only [stripParensAux]
      rw [if_neg (h c (by simp)), ih cs (fun d hd => h d (by simp [hd]))]

theorem subBadRunsAux_id : ∀ (fuel : Nat) (l : List Char), (∀ c ∈ l, badChar c = false) →
    subBadRunsAux fuel l = l := by
  intro fuel
  induction fuel with
  | zero => intro l _; rfl
  | succ f ih =>
    intro l h
    cases l with
    | nil => rfl
    | cons c cs =>
      simp only [subBadRunsAux]
      rw [if_neg (by simp [h c (by simp)]), ih cs (fun d hd => h d (by simp [hd]))]

theorem subBadRunsAux_chars : ∀ (fuel : Nat) (l : List Char), l.length < fuel →
    ∀ c ∈ subBadRunsAux fuel l, badChar c = false := by
  intro fuel
  induction fuel with
  | zero => intro l h; omega
  | succ f ih =>
    intro l h c hc
    cases l with
    | nil => simp [subBadRunsAux] at hc
    | cons a as =>
      simp only [subBadRunsAux] at hc
      by_cases hb : badChar a
      · rw [if_pos hb] at hc
        rcases List.mem_cons.mp hc with rfl | hc
        · decide
        · exact ih _ (lt_of_le_of_lt (dropWhile_length_le _ _) (by simp at h; omega)) c hc
      · rw [if_neg hb] at hc
        rcases List.mem_cons.mp hc with rfl | hc
        · exact Bool.eq_false_iff.mpr hb
        · exact ih as (by simp at h; omega) c hc

theorem splitWsAux_irrel : ∀ (fuel fuel' : Nat) (l : List Char),
    l.length < fuel → l.length < fuel' → splitWsAux fuel l = splitWsAux fuel' l := by
  intro fuel
  induction fuel with
  | zero => intro fuel' l h; omega
  | succ f ih =>
    intro fuel' l h h'
    cases fuel' with
    | zero => omega
    | succ f' =>
      cases l with
      | nil => rfl
      | cons c cs =>
        simp only [splitWsAux]
        by_cases hc : isWsC c
        · rw [if_pos hc, if_pos hc]
          exact ih f' cs (by simp at h; omega) (by simp at h'; omega)
        · rw [if_neg hc, if_neg hc]
          congr 1
          exact ih f' _ (lt_of_le_of_lt (dropWhile_length_le _ _) (by simp at h; omega))
            (lt_of_le_of_lt (dropWhile_length_le _ _) (by simp at h'; omega))

theorem splitWs_cons (c : Char) (cs : List Char) :
    splitWs (c :: cs) =
      if isWsC c then splitWs cs
      else (c :: cs.takeWhile (fun x => !isWsC x)) :: splitWs (cs.dropWhile (fun x => !isWsC x)) := by
  simp only [splitWs, List.length_cons, splitWsAux]
  by_cases hc : isWsC c
  · rw [if_pos hc, if_pos hc]
  · rw [if_neg hc, if_neg hc]
    congr 1
    exact splitWsAux_irrel _ _ _ (lt_of_le_of_lt (dropWhile_length_le _ _) (by omega)) (by omega)

theorem splitWsAux_chars : ∀ (fuel : Nat) (l : List Char), l.length < fuel →
    ∀ w ∈ splitWsAux fuel l, ∀ c ∈ w, c ∈ l ∧ isWsC c = false := by
  intro fuel
  induction fuel with
  | zero => intro l h; omega
  | succ f ih =>
    intro l h w hw c hc
    cases l with
    | nil => simp [splitWsAux] at hw
    | cons a as =>
      simp only [splitWsAux] at hw
      by_cases ha : isWsC a
      · rw [if_pos ha] at hw
        obtain ⟨hm, hws⟩ := ih as (by simp at h; omega) w hw c hc
        exact ⟨List.mem_cons_of_mem _ hm, hws⟩
      · rw [if_neg ha] at hw
        rcases List.mem_cons.mp hw with rfl | hw
        · rcases List.mem_cons.mp hc with rfl | hc
          · exact ⟨List.mem_cons_self _ _, Bool.eq_false_iff.mpr ha⟩
          · have hmem : c ∈ as := (List.takeWhile_sublist _).subset hc
            have hp := List.mem_takeWhile_imp hc
            simp only [Bool.not_eq_true'] at hp
            exact ⟨List.mem_cons_of_mem _ hmem, hp⟩
        · obtain ⟨hm, hws⟩ := ih _
            (lt_of_le_of_lt (dropWhile_length_le _ _) (by simp at h; omega)) w hw c hc
          exact ⟨List.mem_cons_of_mem _ ((List.dropWhile_sublist _).subset hm), hws⟩

theorem splitWs_chars (l : List Char) :
    ∀ w ∈ splitWs l, ∀ c ∈ w, c ∈ l ∧ isWsC c = false :=
  splitWsAux_chars (l.length + 1) l (by omega)

theorem splitWs_word_append (w t : List Char) (hne : w ≠ [])
    (hnws : ∀ c ∈ w, isWsC c = false) :
    splitWs (w ++ ' ' :: t) = w :: splitWs t := by
  cases w with
  | nil => exact absurd rfl hne
  | cons c wrest =>
    rw [List.cons_append, splitWs_cons, if_neg (by simp [hnws c (by simp)])]
    rw [takeWhile_append_all _ wrest (' ' :: t)
          (fun d hd => by simp [hnws d (by simp [hd])]),
        show List.takeWhile (fun x => !isWsC x) (' ' :: t) = [] from by
          rw [List.takeWhile_cons, if_neg (by decide)],
        List.append_nil,
        dropWhile_append_all _ wrest (' ' :: t)
          (fun d hd => by simp [hnws d (by simp [hd])]),
        show List.dropWhile (fun x => !isWsC x) (' ' :: t) = ' ' :: t from by
          rw [List.dropWhile_cons, if_neg (by decide)],
        splitWs_cons, if_pos (by decide)]

theorem splitWs_single (w : List Char) (hne : w ≠ [])
    (hnws : ∀ c ∈ w, isWsC c = false) : splitWs w = [w] := by
  cases w with
  | nil => exact absurd rfl hne
  | cons c wrest =>
    rw [splitWs_cons, if_neg (by simp [hnws c (by simp)]),
        takeWhile_all _ wrest (fun d hd => by simp [hnws d (by simp [hd])]),
        dropWhile_all _ wrest (fun d hd => by simp [hnws d (by simp [hd])])]
    rfl

theorem splitWs_joinSp : ∀ (ws : List (List Char)), (∀ w ∈ ws, w ≠ []) →
    (∀ w ∈ ws, ∀ c ∈ w, isWsC c = false) → splitWs (joinSp ws) = ws
  | [], _, _ => rfl
  | [w], h1, h2 => by
    rw [show joinSp [w] = w from rfl, splitWs_single w (h1 w (by simp)) (h2 w (by simp))]
  | w :: w2 :: rest, h1, h2 => by
    rw [show joinSp (w :: w2 :: rest) = w ++ ' ' :: joinSp (w2 :: rest) from rfl,
        splitWs_word_append w _ (h1 w (by simp)) (h2 w (by simp)),
        splitWs_joinSp (w2 :: rest) (fun v hv => h1 v (List.mem_cons_of_mem _ hv))
          (fun v hv => h2 v (List.mem_cons_of_mem _ hv))]

theorem mem_joinSp : ∀ (ws : List (List Char)) (c : Char), c ∈ joinSp ws →
    (∃ w ∈ ws, c ∈ w) ∨ c = ' '
  | [], c, h => by simp [joinSp] at h
  | [w], c, h => Or.inl ⟨w, by simp, by simpa [joinSp] using h⟩
  | w :: w2 :: rest, c, h => by
    rw [show joinSp (w :: w2 :: rest) = w ++ ' ' :: joinSp (w2 :: rest) from rfl] at h
    rcases List.mem_append.mp h with h | h
    · exact Or.inl ⟨w, by simp, h⟩
    · rcases List.mem_cons.mp h with h | h
      · exact Or.inr h
      · rcases mem_joinSp (w2 :: rest) c h with ⟨w', hw', hc⟩ | h
        · exact Or.inl ⟨w', List.mem_cons_of_mem _ hw', hc⟩
        · exact Or.inr h

theorem joinSp_ne_nil (w : List Char) (ws : List (List Char)) (hne : w ≠ []) :
    joinSp (w :: ws) ≠ [] := by
  cases ws with
  | nil => simpa [joinSp] using hne
  | cons w2 rest =>
    rw [show joinSp (w :: w2 :: rest) = w ++ ' ' :: joinSp (w2 :: rest) from rfl]
    simp

theorem head?_append_ne {l l' : List Char} (h : l ≠ []) : (l ++ l').head? = l.head? := by
  cases l with
  | nil => exact absurd rfl h
  | cons c cs => rfl

theorem getLast?_append_ne {l l' : List Char} (h : l' ≠ []) :
    (l ++ l').getLast? = l'.getLast? := by
  rw [← List.head?_reverse, List.reverse_append,
      head?_append_ne (by simpa using h), List.head?_reverse]

theorem joinSp_head_nws : ∀ (ws : List (List Char)), (∀ w ∈ ws, w ≠ []) →
    (∀ w ∈ ws, ∀ c ∈ w, isWsC c = false) →
    ∀ c, (joinSp ws).head? = some c → isWsC c = false
  | [], _, _, c, h => by simp [joinSp] at h
  | [w], h1, h2, c, h => by
    apply h2 w (by simp)
    cases w with
    | nil => simp [joinSp] at h
    | cons a as =>
      rw [show joinSp [a :: as] = a :: as from rfl] at h
      injection h with h
      rw [← h]
      simp
  | w :: w2 :: rest, h1, h2, c, h => by
    rw [show joinSp (w :: w2 :: rest) = w ++ ' ' :: joinSp (w2 :: rest) from rfl,
        head?_append_ne (h1 w (by simp))] at h
    apply h2 w (by simp)
    cases w with
    | nil => exact absurd rfl (h1 [] (by simp))
    | cons a as =>
      injection h with h
      rw [← h]
      simp

theorem joinSp_getLast_nws : ∀ (ws : List (List Char)), (∀ w ∈ ws, w ≠ []) →
    (∀ w ∈ ws, ∀ c ∈ w, isWsC c = false) →
    ∀ c, (joinSp ws).getLast? = some c → isWsC c = false
  | [], _, _, c, h => by simp [joinSp] at h
  | [w], h1, h2, c, h => by
    apply h2 w (by simp)
    exact mem_of_getLast?_eq (by simpa [joinSp] using h)
  | w :: w2 :: rest, h1, h2, c, h => by
    rw [show joinSp (w :: w2 :: rest) = w ++ ' ' :: joinSp (w2 :: rest) from rfl,
        getLast?_append_ne (by simp)] at h
    have hJne : joinSp (w2 :: rest) ≠ [] := joinSp_ne_nil w2 rest (h1 w2 (by simp))
    have h2' : (' ' :: joinSp (w2 :: rest)).getLast? = (joinSp (w2 :: rest)).getLast? := by
      cases hJ : joinSp (w2 :: rest) with
      | nil => exact absurd hJ hJne
      | cons b bs => rw [List.getLast?_cons_cons]
    rw [h2'] at h
    exact joinSp_getLast_nws (w2 :: rest) (fun v hv => h1 v (List.mem_cons_of_mem _ hv))
      (fun v hv => h2 v (List.mem_cons_of_mem _ hv)) c h

theorem normalizeList_joinSp (ws : List (List Char))
    (h1 : ∀ w ∈ ws, w ≠ [])
    (h2 : ∀ w ∈ ws, ∀ c ∈ w, allowedChar c = true)
    (h3 : ∀ w ∈ ws, STOP_WORDS.contains w = false) :
    normalizeList (joinSp ws) = joinSp ws := by
  have hclean : ∀ c ∈ joinSp ws, allowedChar c = true ∨ c = ' ' := by
    intro c hc
    rcases mem_joinSp ws c hc with ⟨w, hw, hcw⟩ | h
    · exact Or.inl (h2 w hw c hcw)
    · exact Or.inr h
  have hnws : ∀ w ∈ ws, ∀ c ∈ w, isWsC c = false :=
    fun w hw c hc => allowed_not_ws (h2 w hw c hc)
  have hstrip : pyStrip (joinSp ws) = joinSp ws := by
    unfold pyStrip
    rw [dropWhile_head_false isWsC _ (joinSp_head_nws ws h1 hnws),
        dropWhile_head_false isWsC _ (by
          intro c hc
          rw [List.head?_reverse] at hc
          exact joinSp_getLast_nws ws h1 hnws c hc),
        List.reverse_reverse]
  show joinSp ((splitWs (subBadRuns (stripParens (replaceYo (pyStrip
      ((joinSp ws).map pyLower)))))).filter
        fun w => !w.isEmpty && !(STOP_WORDS.contains w)) = joinSp ws
  rw [map_eq_self_of (fun c hc => clean_lower (hclean c hc)), hstrip,
      show replaceYo (joinSp ws) = joinSp ws from
        map_eq_self_of (fun c hc => clean_yo (hclean c hc)),
      show stripParens (joinSp ws) = joinSp ws from
        stripParensAux_id _ _ (fun c hc => clean_not_lparen (hclean c hc)),
      show subBadRuns (joinSp ws) = joinSp ws from
        subBadRunsAux_id _ _ (fun c hc => clean_not_bad (hclean c hc)),
      splitWs_joinSp ws h1 hnws,
      List.filter_eq_self.mpr ?_]
  intro w hw
  rw [Bool.and_eq_true, Bool.not_eq_true', Bool.not_eq_true', h3 w hw]
  refine ⟨?_, rfl⟩
  simpa [List.isEmpty_iff] using h1 w hw

theorem normalizeList_idem (l : List Char) :
    normalizeList (normalizeList l) = normalizeList l := by
  have hsplit := splitWs_chars (subBadRuns (stripParens (replaceYo (pyStrip (l.map pyLower)))))
  have hbad : ∀ c ∈ subBadRuns (stripParens (replaceYo (pyStrip (l.map pyLower)))),
      badChar c = false :=
    subBadRunsAux_chars ((stripParens (replaceYo (pyStrip (l.map pyLower)))).length + 1)
      (stripParens (replaceYo (pyStrip (l.map pyLower)))) (by omega)
  have heq : normalizeList l = joinSp
      ((splitWs (subBadRuns (stripParens (replaceYo (pyStrip (l.map pyLower)))))).filter
        fun w => !w.isEmpty && !(STOP_WORDS.contains w)) := rfl
  rw [heq]
  apply normalizeList_joinSp
  · intro w hw
    have hp := List.of_mem_filter hw
    simp only [Bool.and_eq_true, Bool.not_eq_true'] at hp
    simpa [List.isEmpty_iff] using hp.1
  · intro w hw c hc
    obtain ⟨hct, hcw⟩ := hsplit w (List.mem_of_mem_filter hw) c hc
    have hb : (allowedChar c || isWsC c) = true := by
      have hbc := hbad c hct
      unfold badChar at hbc
      cases hor : (allowedChar c || isWsC c) with
      | true => rfl
      | false =>
        rw [hor] at hbc
        simp at hbc
    rcases Bool.or_eq_true .. |>.mp hb with hb | hb
    · exact hb
    · rw [hcw] at hb
      cases hb
  · intro w hw
    have hp := List.of_mem_filter hw
    simp only [Bool.and_eq_true, Bool.not_eq_true'] at hp
    exact hp.2

/-- C6: the normalizer is idempotent — normalizing an already normalized
food name changes nothing. -/
theorem normalize_idempotent (x : String) :
    normalize_food_name (normalize_food_name x) = normalize_food_name x :=
  congrArg String.mk (normalizeList_idem x.data)
